import Mathlib

/-!
Verification development for the guest-kernel emulation core and the
texture swizzling routines of this repository.

Part 1 embeds `src/video_core/textures/decoders.cpp` shallowly: every
`memcpy` performed by the C++ code becomes one copy operation
`(swizzled_offset, unswizzled_offset, length)` in a trace list, emitted in
exactly the loop order of the source; memory is a total function `Nat → Nat`
and machine `u32` arithmetic is modelled by unbounded naturals (no 2^32
wrap-around), which coincides with the source whenever no intermediate
value overflows 32 bits.

Part 2 models the kernel components (scheduler, synchronization, handle
table, time manager, exclusive monitor).  Their implementations are not
part of the available sources — only the `KernelCore` declaration header
is — so, as recorded in each doc comment, these definitions are modelled
from the specification's words.
-/

/-! ## Texture decoder embedding (from src/video_core/textures/decoders.cpp) -/

/-- GOB size in the x dimension in bytes (`GOB_SIZE_X`, decoders.h). -/
def GOB_SIZE_X : Nat := 64

/-- GOB size in the y dimension in rows (`GOB_SIZE_Y`, decoders.h). -/
def GOB_SIZE_Y : Nat := 8

/-- Total bytes of one GOB (`GOB_SIZE = 64 * 8 * 1`, decoders.h). -/
def GOB_SIZE : Nat := 512

/-- Entry of the constexpr `SwizzleTable<N, M, Align>` of decoders.cpp for row
`y` and column `x`: with `x2 := x * Align`,
`((x2 % 64) / 32) * 256 + ((y % 8) / 2) * 64 + ((x2 % 32) / 16) * 32 + (y % 2) * 16 + (x2 % 16)`.
`LEGACY_SWIZZLE_TABLE` instantiates `Align = 1`, `FAST_SWIZZLE_TABLE`
instantiates `Align = 16`. -/
def swizzleTableEntry (align y x : Nat) : Nat :=
  ((x * align % 64) / 32) * 256 + ((y % 8) / 2) * 64 +
    ((x * align % 32) / 16) * 32 + (y % 2) * 16 + (x * align % 16)

/-- One `memcpy` of the decoder: `(swizzled offset, unswizzled offset, byte count)`. -/
abbrev CopyOp : Type := Nat × Nat × Nat

/-- Ceiling division, the `div_ceil` lambda of `SwizzledData` / `GetGOBOffset`. -/
def divCeil (x y : Nat) : Nat := (x + y - 1) / y

/-- Round `v` up to a multiple of `s` (`Common::AlignUp`, common/alignment.h;
that header is outside the available sources, but the equivalence theorems
below never unfold this definition — both compared paths use it identically). -/
def alignUp (v s : Nat) : Nat := if v % s = 0 then v else v - v % s + s

/-- Inner x-loop of `PreciseProcessBlock` (decoders.cpp lines 64-70) for a
fixed row: for each `x` in `[x_start, x_end)` one `memcpy` of
`bytes_per_pixel` bytes between `swizzled_data + y_address + table[x*bpp % 64]`
and `unswizzled_data + x*out_bpp + pixel_base`. -/
def preciseRow (y_address pixel_base y x_start x_end bytes_per_pixel out_bytes_per_pixel : Nat) :
    List CopyOp :=
  (List.range' x_start (x_end - x_start)).map (fun x =>
    (y_address + swizzleTableEntry 1 y (x * bytes_per_pixel % GOB_SIZE_X),
     x * out_bytes_per_pixel + pixel_base,
     bytes_per_pixel))

/-- Middle y-loop of `PreciseProcessBlock` (lines 62-74): iterates `cnt` rows
starting at row `y`, adding `stride_x` to `pixel_base` each row and `GOB_SIZE`
to `y_address` after every 8th row. -/
def preciseRows (x_start x_end bytes_per_pixel out_bytes_per_pixel stride_x : Nat) :
    Nat → Nat → Nat → Nat → List CopyOp
  | 0, _, _, _ => []
  | cnt + 1, y, y_address, pixel_base =>
      preciseRow y_address pixel_base y x_start x_end bytes_per_pixel out_bytes_per_pixel ++
      preciseRows x_start x_end bytes_per_pixel out_bytes_per_pixel stride_x cnt (y + 1)
        (if (y + 1) % GOB_SIZE_Y = 0 then y_address + GOB_SIZE else y_address)
        (pixel_base + stride_x)

/-- Outer z-loop of `PreciseProcessBlock` (lines 59-76): for each of `cnt`
slices starting at `z`, the row loop starts from `y_address = z_address` and
`pixel_base = layer_z * z + y_start * stride_x`; `z_address` advances by
`xy_block_size` per slice. -/
def preciseSlices (x_start x_end y_start y_end bytes_per_pixel out_bytes_per_pixel stride_x
    xy_block_size layer_z : Nat) : Nat → Nat → Nat → List CopyOp
  | 0, _, _ => []
  | cnt + 1, z, z_address =>
      preciseRows x_start x_end bytes_per_pixel out_bytes_per_pixel stride_x
        (y_end - y_start) y_start z_address (layer_z * z + y_start * stride_x) ++
      preciseSlices x_start x_end y_start y_end bytes_per_pixel out_bytes_per_pixel stride_x
        xy_block_size layer_z cnt (z + 1) (z_address + xy_block_size)

/-- `PreciseProcessBlock` of decoders.cpp (lines 51-77), as the trace of its
memcpys in source order. -/
def PreciseProcessBlock (x_start y_start z_start x_end y_end z_end tile_offset xy_block_size
    layer_z stride_x bytes_per_pixel out_bytes_per_pixel : Nat) : List CopyOp :=
  preciseSlices x_start x_end y_start y_end bytes_per_pixel out_bytes_per_pixel stride_x
    xy_block_size layer_z (z_end - z_start) z_start tile_offset

/-- Inner xb-loop of `FastProcessBlock` (lines 99-106): `xb` runs from
`x_startb` in steps of `FAST_SWIZZLE_ALIGN = 16` while `xb < x_endb`; each
iteration copies 16 bytes between `swizzled_data + y_address + fast_table[(xb/16) % 4]`
and `unswizzled_data + (xb * out_bpp / bpp) + pixel_base`. -/
def fastRow (y_address pixel_base y x_startb x_endb bytes_per_pixel out_bytes_per_pixel : Nat) :
    List CopyOp :=
  (List.range' x_startb (divCeil (x_endb - x_startb) 16) 16).map (fun xb =>
    (y_address + swizzleTableEntry 16 y (xb / 16 % 4),
     xb * out_bytes_per_pixel / bytes_per_pixel + pixel_base,
     16))

/-- Middle y-loop of `FastProcessBlock` (lines 97-110), same row bookkeeping
as the precise variant. -/
def fastRows (x_startb x_endb bytes_per_pixel out_bytes_per_pixel stride_x : Nat) :
    Nat → Nat → Nat → Nat → List CopyOp
  | 0, _, _, _ => []
  | cnt + 1, y, y_address, pixel_base =>
      fastRow y_address pixel_base y x_startb x_endb bytes_per_pixel out_bytes_per_pixel ++
      fastRows x_startb x_endb bytes_per_pixel out_bytes_per_pixel stride_x cnt (y + 1)
        (if (y + 1) % GOB_SIZE_Y = 0 then y_address + GOB_SIZE else y_address)
        (pixel_base + stride_x)

/-- Outer z-loop of `FastProcessBlock` (lines 94-112). -/
def fastSlices (x_startb x_endb y_start y_end bytes_per_pixel out_bytes_per_pixel stride_x
    xy_block_size layer_z : Nat) : Nat → Nat → Nat → List CopyOp
  | 0, _, _ => []
  | cnt + 1, z, z_address =>
      fastRows x_startb x_endb bytes_per_pixel out_bytes_per_pixel stride_x
        (y_end - y_start) y_start z_address (layer_z * z + y_start * stride_x) ++
      fastSlices x_startb x_endb y_start y_end bytes_per_pixel out_bytes_per_pixel stride_x
        xy_block_size layer_z cnt (z + 1) (z_address + xy_block_size)

/-- `FastProcessBlock` of decoders.cpp (lines 84-113), as the trace of its
memcpys in source order; `x_startb = x_start * bpp` and `x_endb = x_end * bpp`
as in lines 91-92. -/
def FastProcessBlock (x_start y_start z_start x_end y_end z_end tile_offset xy_block_size
    layer_z stride_x bytes_per_pixel out_bytes_per_pixel : Nat) : List CopyOp :=
  fastSlices (x_start * bytes_per_pixel) (x_end * bytes_per_pixel) y_start y_end
    bytes_per_pixel out_bytes_per_pixel stride_x xy_block_size layer_z
    (z_end - z_start) z_start tile_offset

/-- Innermost xb block loop of `SwizzledData` (lines 151-164): `cnt` blocks
starting at block index `xb`; `tile_offset` advances by `block_size` per block. -/
def swizzledBlocksX (fast : Bool) (width block_x_elements y_start y_end z_start z_end
    xy_block_size block_size layer_z stride_x bytes_per_pixel out_bytes_per_pixel : Nat) :
    Nat → Nat → Nat → List CopyOp
  | 0, _, _ => []
  | cnt + 1, xb, tile_offset =>
      (if fast then
        FastProcessBlock (xb * block_x_elements) y_start z_start
          (min width (xb * block_x_elements + block_x_elements)) y_end z_end tile_offset
          xy_block_size layer_z stride_x bytes_per_pixel out_bytes_per_pixel
      else
        PreciseProcessBlock (xb * block_x_elements) y_start z_start
          (min width (xb * block_x_elements + block_x_elements)) y_end z_end tile_offset
          xy_block_size layer_z stride_x bytes_per_pixel out_bytes_per_pixel) ++
      swizzledBlocksX fast width block_x_elements y_start y_end z_start z_end xy_block_size
        block_size layer_z stride_x bytes_per_pixel out_bytes_per_pixel
        cnt (xb + 1) (tile_offset + block_size)

/-- yb block loop of `SwizzledData` (lines 148-165); across one full row of
`blocks_on_x` blocks, `tile_offset` advances by `blocks_on_x * block_size`. -/
def swizzledBlocksY (fast : Bool) (width height block_x_elements block_y_elements blocks_on_x
    z_start z_end xy_block_size block_size layer_z stride_x bytes_per_pixel
    out_bytes_per_pixel : Nat) : Nat → Nat → Nat → List CopyOp
  | 0, _, _ => []
  | cnt + 1, yb, tile_offset =>
      swizzledBlocksX fast width block_x_elements (yb * block_y_elements)
        (min height (yb * block_y_elements + block_y_elements)) z_start z_end
        xy_block_size block_size layer_z stride_x bytes_per_pixel out_bytes_per_pixel
        blocks_on_x 0 tile_offset ++
      swizzledBlocksY fast width height block_x_elements block_y_elements blocks_on_x
        z_start z_end xy_block_size block_size layer_z stride_x bytes_per_pixel
        out_bytes_per_pixel cnt (yb + 1) (tile_offset + blocks_on_x * block_size)

/-- zb block loop of `SwizzledData` (lines 145-166). -/
def swizzledBlocksZ (fast : Bool) (width height depth block_x_elements block_y_elements
    block_z_elements blocks_on_x blocks_on_y xy_block_size block_size layer_z stride_x
    bytes_per_pixel out_bytes_per_pixel : Nat) : Nat → Nat → Nat → List CopyOp
  | 0, _, _ => []
  | cnt + 1, zb, tile_offset =>
      swizzledBlocksY fast width height block_x_elements block_y_elements blocks_on_x
        (zb * block_z_elements) (min depth (zb * block_z_elements + block_z_elements))
        xy_block_size block_size layer_z stride_x bytes_per_pixel out_bytes_per_pixel
        blocks_on_y 0 tile_offset ++
      swizzledBlocksZ fast width height depth block_x_elements block_y_elements
        block_z_elements blocks_on_x blocks_on_y xy_block_size block_size layer_z stride_x
        bytes_per_pixel out_bytes_per_pixel cnt (zb + 1)
        (tile_offset + blocks_on_y * (blocks_on_x * block_size))

/-- `SwizzledData<fast>` of decoders.cpp (lines 124-167): computes the block
geometry exactly as the source and runs the three block loops, dispatching to
`FastProcessBlock` when `fast` and to `PreciseProcessBlock` otherwise. -/
def SwizzledData (fast : Bool) (width height depth bytes_per_pixel out_bytes_per_pixel
    block_height block_depth width_spacing : Nat) : List CopyOp :=
  let stride_x := width * out_bytes_per_pixel
  let layer_z := height * stride_x
  let gob_elements_x := GOB_SIZE_X / bytes_per_pixel
  let block_x_elements := gob_elements_x
  let block_y_elements := GOB_SIZE_Y * block_height
  let block_z_elements := 1 * block_depth
  let aligned_width := alignUp width (gob_elements_x * width_spacing)
  let blocks_on_x := divCeil aligned_width block_x_elements
  let blocks_on_y := divCeil height block_y_elements
  let blocks_on_z := divCeil depth block_z_elements
  let xy_block_size := GOB_SIZE * block_height
  let block_size := xy_block_size * block_depth
  swizzledBlocksZ fast width height depth block_x_elements block_y_elements block_z_elements
    blocks_on_x blocks_on_y xy_block_size block_size layer_z stride_x bytes_per_pixel
    out_bytes_per_pixel blocks_on_z 0 0

/-- `CopySwizzledData` of decoders.cpp (lines 171-185): selects the fast path
when `bytes_per_pixel % 3 != 0 && (width * bytes_per_pixel) % 16 == 0`,
passing `1 << block_height` and `1 << block_depth` as block extents. -/
def CopySwizzledData (width height depth bytes_per_pixel out_bytes_per_pixel
    block_height block_depth width_spacing : Nat) : List CopyOp :=
  if bytes_per_pixel % 3 ≠ 0 ∧ (width * bytes_per_pixel) % 16 = 0 then
    SwizzledData true width height depth bytes_per_pixel out_bytes_per_pixel
      (2 ^ block_height) (2 ^ block_depth) width_spacing
  else
    SwizzledData false width height depth bytes_per_pixel out_bytes_per_pixel
      (2 ^ block_height) (2 ^ block_depth) width_spacing

/-- `SwizzleSubrect` of decoders.cpp (lines 205-229), as its memcpy trace in
source order; destination is the swizzled buffer. -/
def SwizzleSubrect (subrect_width subrect_height source_pitch swizzled_width bytes_per_pixel
    block_height_bit offset_x offset_y : Nat) : List CopyOp :=
  let block_height := 2 ^ block_height_bit
  let image_width_in_gobs := (swizzled_width * bytes_per_pixel + (GOB_SIZE_X - 1)) / GOB_SIZE_X
  (List.range subrect_height).flatMap (fun line =>
    let dst_y := line + offset_y
    let gob_address_y :=
      dst_y / (GOB_SIZE_Y * block_height) * GOB_SIZE * block_height * image_width_in_gobs +
      dst_y % (GOB_SIZE_Y * block_height) / GOB_SIZE_Y * GOB_SIZE
    (List.range subrect_width).map (fun x =>
      let dst_x := x + offset_x
      let gob_address :=
        gob_address_y + dst_x * bytes_per_pixel / GOB_SIZE_X * GOB_SIZE * block_height
      (gob_address + swizzleTableEntry 1 dst_y (dst_x * bytes_per_pixel % GOB_SIZE_X),
       line * source_pitch + x * bytes_per_pixel,
       bytes_per_pixel)))

/-- `UnswizzleSubrect` of decoders.cpp (lines 231-251), as its memcpy trace in
source order; destination is the unswizzled buffer.  Note the source computes
`gob_address_y` without the `image_width_in_gobs` factor used by
`SwizzleSubrect`. -/
def UnswizzleSubrect (subrect_width subrect_height dest_pitch swizzled_width bytes_per_pixel
    block_height_bit offset_x offset_y : Nat) : List CopyOp :=
  let block_height := 2 ^ block_height_bit
  (List.range subrect_height).flatMap (fun line =>
    let y2 := line + offset_y
    let gob_address_y :=
      y2 / (GOB_SIZE_Y * block_height) * GOB_SIZE * block_height +
      y2 % (GOB_SIZE_Y * block_height) / GOB_SIZE_Y * GOB_SIZE
    (List.range subrect_width).map (fun x =>
      let x2 := (x + offset_x) * bytes_per_pixel
      let gob_address := gob_address_y + x2 / GOB_SIZE_X * GOB_SIZE * block_height
      (gob_address + swizzleTableEntry 1 y2 (x2 % GOB_SIZE_X),
       line * dest_pitch + x * bytes_per_pixel,
       bytes_per_pixel)))

/-- Byte-level expansion of one copy operation: a `memcpy` of `len` bytes is
the `len` single-byte copies at successive offsets. -/
def byteCopies (op : CopyOp) : List (Nat × Nat) :=
  (List.range op.2.2).map (fun i => (op.1 + i, op.2.1 + i))

/-- Byte-level expansion of a whole trace. -/
def byteTrace (ops : List CopyOp) : List (Nat × Nat) :=
  ops.flatMap byteCopies

/-- Apply a list of byte writes `(destination offset, source offset)` to a
destination memory, reading every source byte from the fixed memory `src`
(the decoder never writes the buffer it reads from). -/
def applyW (src : Nat → Nat) (ws : List (Nat × Nat)) (dst : Nat → Nat) : Nat → Nat :=
  ws.foldl (fun d w => fun a => if a = w.1 then src w.2 else d a) dst

/-- Orient the byte pairs `(swizzled offset, unswizzled offset)` of a trace
into `(destination, source)` pairs: when `unswizzle` is true the destination
is the unswizzled buffer, otherwise the swizzled buffer. -/
def dirWrites (unswizzle : Bool) (bops : List (Nat × Nat)) : List (Nat × Nat) :=
  bops.map (fun p => if unswizzle then (p.2, p.1) else p)

/-- Final destination buffer after running a decoder trace: reads come from
the untouched source buffer, writes go byte by byte in trace order. -/
def runCopies (unswizzle : Bool) (ops : List CopyOp) (swizzled unswizzled : Nat → Nat) :
    Nat → Nat :=
  applyW (if unswizzle then swizzled else unswizzled)
    (dirWrites unswizzle (byteTrace ops))
    (if unswizzle then unswizzled else swizzled)

/-! ## Kernel core models (spec-modelled)

The implementations of `GlobalScheduler`, `Synchronization`, `HandleTable`,
`TimeManager` and the exclusive monitor are not among the available sources;
only the `KernelCore` interface header is.  The definitions below are
therefore modelled from the specification's own words (sections 4.1-4.6). -/

/-- Outcome with which a blocked thread is resumed (spec 4.3). -/
inductive WakeOutcome where
  | signaled
  | timedOut
  | cancelled
deriving DecidableEq

/-- The three resumption paths that race for a blocked thread (spec 4.3.5). -/
inductive ResumePath where
  | signalPath
  | timeoutPath
  | cancelPath
deriving DecidableEq

/-- Outcome delivered by each resumption path (spec 4.3.3, 4.3.4, 4.3.6). -/
def pathOutcome : ResumePath → WakeOutcome
  | .signalPath => .signaled
  | .timeoutPath => .timedOut
  | .cancelPath => .cancelled

/-- Modelled from the spec: the per-thread resumption bookkeeping of
Synchronization (4.3.5), whose implementation file is missing.  A blocked
thread carries one resolution flag and a registration flag for its wait-list
membership. -/
structure BlockedThread where
  resolution : Option WakeOutcome
  registered : Bool
deriving DecidableEq

/-- A freshly blocked thread: unresolved, registered on its wait lists. -/
def initBlocked : BlockedThread := { resolution := none, registered := true }

/-- Modelled from the spec: one resumption path running against a blocked
thread (4.3.5).  Whichever path claims the unresolved flag first performs the
resumption (removing the thread from every wait list); a path that finds the
flag already claimed is a no-op.  Returns the new state and whether this path
performed the resumption. -/
def resumeStep (s : BlockedThread) (p : ResumePath) : BlockedThread × Bool :=
  match s.resolution with
  | some _ => (s, false)
  | none => ({ resolution := some (pathOutcome p), registered := false }, true)

/-- Run an interleaving of resumption paths, counting how many of them
performed the resumption. -/
def resumeRun (s : BlockedThread) (ps : List ResumePath) : BlockedThread × Nat :=
  ps.foldl (fun acc p =>
    let r := resumeStep acc.1 p
    (r.1, acc.2 + if r.2 then 1 else 0)) (s, 0)

/-- A waiter on a kernel object's wait list: identity plus priority (lower
numeric value is higher priority). -/
structure Waiter where
  wid : Nat
  priority : Nat
deriving DecidableEq

/-- Kind of a waitable kernel object (spec 4.3.3): mutex-like wakes a single
waiter, event-like broadcasts. -/
inductive ObjKind where
  | mutexKind
  | eventKind
deriving DecidableEq

/-- A waitable kernel object: its kind and its wait list in registration
order (earliest first). -/
structure WaitObject where
  kind : ObjKind
  waiters : List Waiter
deriving DecidableEq

/-- Modelled from the spec: the single-waiter selection of `Signal` on a
mutex-kind object (4.3.3), whose implementation file is missing.  Scans the
registration-ordered wait list and keeps the earliest waiter of the highest
priority (lowest numeric value); returns it together with the remaining list
in unchanged relative order. -/
def signalOne : List Waiter → Option (Waiter × List Waiter)
  | [] => none
  | w :: ws =>
    match signalOne ws with
    | none => some (w, [])
    | some (w2, ws2) => if w2.priority < w.priority then some (w2, w :: ws2) else some (w, ws)

/-- Modelled from the spec: `Signal(object)` (4.3.3).  Mutex-kind: remove and
resume exactly one waiter (priority-highest, then earliest-registered);
event-kind: resume every current waiter and empty the wait list.  Returns the
updated object and the list of resumed waiters with their outcomes. -/
def Signal (o : WaitObject) : WaitObject × List (Waiter × WakeOutcome) :=
  match o.kind with
  | .eventKind => ({ o with waiters := [] }, o.waiters.map (fun w => (w, .signaled)))
  | .mutexKind =>
    match signalOne o.waiters with
    | none => (o, [])
    | some (w, rest) => ({ o with waiters := rest }, [(w, .signaled)])

/-- A guest thread as the scheduler sees it (spec 3): priority (lower numeric
value is higher), affinity bitmask over physical cores, ideal-core hint. -/
structure KThread where
  tid : Nat
  priority : Nat
  affinityMask : Nat
  idealCore : Nat
deriving DecidableEq

/-- Per-core ready queues of the global scheduler, each in FIFO insertion
order. -/
abbrev ReadyQueues : Type := Nat → List KThread

/-- Modelled from the spec: `GlobalScheduler::AddThread` (4.1), whose
implementation file is missing.  Inserts the thread at the tail of the ready
queue of every core allowed by its affinity mask; an empty mask inserts
nowhere (the thread is never selectable). -/
def AddThread (numCores : Nat) (t : KThread) (q : ReadyQueues) : ReadyQueues :=
  fun c => if c < numCores ∧ t.affinityMask.testBit c then q c ++ [t] else q c

/-- Modelled from the spec: `GlobalScheduler::RemoveThread` (4.1), removing
the thread from every queue it is enqueued in. -/
def RemoveThread (t : KThread) (q : ReadyQueues) : ReadyQueues :=
  fun c => (q c).filter (fun u => u ≠ t)

/-- Scheduler states reachable from empty queues by add/remove operations. -/
inductive SchedReachable (numCores : Nat) : ReadyQueues → Prop
  | empty : SchedReachable numCores (fun _ => [])
  | add (t : KThread) (q : ReadyQueues) :
      SchedReachable numCores q → SchedReachable numCores (AddThread numCores t q)
  | remove (t : KThread) (q : ReadyQueues) :
      SchedReachable numCores q → SchedReachable numCores (RemoveThread t q)

/-- Candidate `cand` displaces the current selection `cur` on core `c`:
strictly higher priority, or equal priority where only `cand` has its
ideal-core hint on `c` (spec 4.1 `Schedule`). -/
def betterChoice (c : Nat) (cand cur : KThread) : Bool :=
  cand.priority < cur.priority ∨
    (cand.priority = cur.priority ∧ cand.idealCore = c ∧ cur.idealCore ≠ c)

/-- Modelled from the spec: `GlobalScheduler::Schedule(core)` (4.1), whose
implementation file is missing.  Scans core `c`'s ready queue in FIFO order
keeping the best candidate under `betterChoice`; returns `none` (idle, not an
error) when the queue is empty. -/
def Schedule (c : Nat) (q : ReadyQueues) : Option KThread :=
  match q c with
  | [] => none
  | t :: ts => some (ts.foldl (fun cur cand => if betterChoice c cand cur then cand else cur) t)

/-- A reference-counted kernel object for the handle table: an identity and a
type tag (spec 4.5's `GetObject<T>` checks the tag). -/
structure KObject where
  oid : Nat
  objType : Nat
deriving DecidableEq

/-- One handle-table slot: optional stored object plus the slot's current
generation. -/
structure HSlot where
  stored : Option KObject
  generation : Nat
deriving DecidableEq

/-- The per-process handle table: a fixed number of slots (the per-process
capacity is `slots.length`). -/
structure HandleTable where
  slots : List HSlot
deriving DecidableEq

/-- A handle: (slot index, generation) pair (spec 3). -/
abbrev Handle : Type := Nat × Nat

/-- Guest-observable error conditions of the handle table (spec 7). -/
inductive HError where
  | InvalidHandle
  | WrongObjectType
  | OutOfHandles
deriving DecidableEq

/-- Modelled from the spec: `HandleTable::CreateHandle` (4.5), whose
implementation file is missing.  Allocates the first free slot (or fails
`OutOfHandles` when every slot is occupied), increments that slot's
generation, stores the object, and returns the handle with the new table. -/
def CreateHandle (tbl : HandleTable) (o : KObject) : Except HError (Handle × HandleTable) :=
  match tbl.slots.findIdx? (fun s => s.stored = none) with
  | none => .error .OutOfHandles
  | some i =>
    let g := ((tbl.slots.getD i ⟨none, 0⟩).generation) + 1
    .ok ((i, g), ⟨tbl.slots.set i ⟨some o, g⟩⟩)

/-- Modelled from the spec: `HandleTable::CloseHandle` (4.5).  Fails
`InvalidHandle` if the slot is out of range, empty, or its generation does
not match; otherwise empties the slot (the generation is kept until the next
allocation increments it). -/
def CloseHandle (tbl : HandleTable) (h : Handle) : Except HError HandleTable :=
  match tbl.slots.get? h.1 with
  | none => .error .InvalidHandle
  | some s =>
    match s.stored with
    | none => .error .InvalidHandle
    | some _ =>
      if s.generation = h.2 then .ok ⟨tbl.slots.set h.1 ⟨none, s.generation⟩⟩
      else .error .InvalidHandle

/-- Modelled from the spec: `HandleTable::GetObject<T>` (4.5).  Fails
`InvalidHandle` on an empty slot or generation mismatch and
`WrongObjectType` when the stored object's type tag differs from `ty`. -/
def GetObject (ty : Nat) (tbl : HandleTable) (h : Handle) : Except HError KObject :=
  match tbl.slots.get? h.1 with
  | none => .error .InvalidHandle
  | some s =>
    match s.stored with
    | none => .error .InvalidHandle
    | some o =>
      if s.generation = h.2 then
        if o.objType = ty then .ok o else .error .WrongObjectType
      else .error .InvalidHandle

/-- A handle-table operation, for reasoning about arbitrary operation
sequences. -/
inductive HOp where
  | create (o : KObject)
  | close (h : Handle)

/-- Apply one operation; a failing operation leaves the table unchanged. -/
def applyHOp (tbl : HandleTable) : HOp → HandleTable
  | .create o =>
    match CreateHandle tbl o with
    | .ok r => r.2
    | .error _ => tbl
  | .close h =>
    match CloseHandle tbl h with
    | .ok t => t
    | .error _ => tbl

/-- Apply a sequence of handle-table operations. -/
def applyHOps (tbl : HandleTable) (ops : List HOp) : HandleTable :=
  ops.foldl applyHOp tbl

/-- Generation of slot `i` (0 when out of range). -/
def genAt (tbl : HandleTable) (i : Nat) : Nat :=
  (tbl.slots.getD i ⟨none, 0⟩).generation

/-- Object stored in slot `i` (none when free or out of range). -/
def storedAt (tbl : HandleTable) (i : Nat) : Option KObject :=
  (tbl.slots.getD i ⟨none, 0⟩).stored

/-- Handle `h` is live: its slot is in range, occupied, and the generation
matches. -/
def ValidHandle (tbl : HandleTable) (h : Handle) : Prop :=
  h.1 < tbl.slots.length ∧ (storedAt tbl h.1).isSome ∧ genAt tbl h.1 = h.2

/-- An address range `(start, size)` for the exclusive monitor. -/
abbrev MemRange : Type := Nat × Nat

/-- Two ranges overlap when they share at least one byte. -/
def rangesOverlap (r1 r2 : MemRange) : Prop :=
  r1.1 < r2.1 + r2.2 ∧ r2.1 < r1.1 + r1.2

instance (r1 r2 : MemRange) : Decidable (rangesOverlap r1 r2) := by
  unfold rangesOverlap; infer_instance

/-- Monitor state: the reservation each core currently holds, if any. -/
abbrev MonState : Type := Nat → Option MemRange

/-- No core holds a reservation initially. -/
def initMon : MonState := fun _ => none

/-- Result of a store-exclusive: an ordinary value, never an error (spec 4.6,
7). -/
inductive StoreResult where
  | Ok
  | Failed
deriving DecidableEq

/-- Events visible to the exclusive monitor between a load-exclusive and the
probed store-exclusive: a `LoadExclusive` by some core, or a write to memory
by some core (an ordinary store, or the memory effect of a successful
exclusive store). -/
inductive MemEvent where
  | loadEx (c : Nat) (r : MemRange)
  | write (c : Nat) (r : MemRange)

/-- Modelled from the spec: the exclusive monitor's reaction to one event
(4.6), whose implementation file is missing.  `LoadExclusive` records the
core's reservation; a write clears the reservation of every core whose
reserved range it touches (including the writing core's own). -/
def monStep (s : MonState) : MemEvent → MonState
  | .loadEx c r => fun c2 => if c2 = c then some r else s c2
  | .write _ r => fun c2 =>
      match s c2 with
      | none => none
      | some r2 => if rangesOverlap r2 r then none else some r2

/-- Monitor state after a history of events, from the initial empty state. -/
def runMon (evs : List MemEvent) : MonState :=
  evs.foldl monStep initMon

/-- Modelled from the spec: `StoreExclusive(address_range)` (4.6).  Succeeds
only when the core's recorded reservation matches the range exactly; on
success the store's write clears every overlapping reservation and consumes
the core's own; on failure it returns `Failed` (an ordinary value) and clears
the core's reservation. -/
def StoreExclusive (c : Nat) (r : MemRange) (s : MonState) : StoreResult × MonState :=
  if s c = some r then
    (.Ok, fun c2 => if c2 = c then none else
      match s c2 with
      | none => none
      | some r2 => if rangesOverlap r2 r then none else some r2)
  else
    (.Failed, fun c2 => if c2 = c then none else s c2)

/-- Event `e` would invalidate core `c`'s reservation of range `r`: it is a
monitor operation by `c` itself, or a write from any core touching `r`. -/
def touches (c : Nat) (r : MemRange) : MemEvent → Prop
  | .loadEx c2 _ => c2 = c
  | .write _ r2 => rangesOverlap r2 r

instance (c : Nat) (r : MemRange) (e : MemEvent) : Decidable (touches c r e) := by
  cases e <;> (unfold touches; infer_instance)

/-- Thread scheduling states (spec 3). -/
inductive ThreadState where
  | ready
  | running
  | waiting
  | terminated
deriving DecidableEq

/-- A waitable object as `WaitSynchronization` sees it: whether it is
currently signaled, plus its wait list of thread ids. -/
structure SyncObject where
  signaled : Bool
  waitList : List Nat
deriving DecidableEq

/-- The state `WaitSynchronization` touches: the calling thread's scheduling
state, the objects, the time manager's entries `(thread id, deadline)`, and
the core's pending-reschedule flag. -/
structure SyncState where
  callerState : ThreadState
  objects : List SyncObject
  timerEntries : List (Nat × Nat)
  reschedulePending : Bool
deriving DecidableEq

/-- Result of `WaitSynchronization` (spec 4.3). -/
inductive WaitResult where
  | SignaledAt (i : Nat)
  | TimedOut
  | Cancelled
deriving DecidableEq

/-- Modelled from the spec: `WaitSynchronization(objects, timeout)` steps 1-2
(4.3), whose implementation file is missing.  If some object is already
signaled it returns `Signaled(i)` for the lowest such index `i` and suspends
nothing; otherwise it registers the caller on every wait list, sets its state
to `Waiting`, requests a reschedule, and schedules a timeout entry when
`timeout` is finite (`some` ticks).  The first component is the immediate
result (`none` when the thread suspended). -/
def WaitSynchronization (tid : Nat) (timeout : Option Nat) (st : SyncState) :
    Option WaitResult × SyncState :=
  match st.objects.findIdx? (fun o => o.signaled) with
  | some i => (some (.SignaledAt i), st)
  | none =>
    (none,
     { callerState := .waiting
       objects := st.objects.map (fun o => { o with waitList := o.waitList ++ [tid] })
       timerEntries :=
         match timeout with
         | some d => st.timerEntries ++ [(tid, d)]
         | none => st.timerEntries
       reschedulePending := true })

/-- The time manager's deadline collection: entries `(thread id, deadline)`. -/
structure TMState where
  entries : List (Nat × Nat)
deriving DecidableEq

/-- Modelled from the spec: `TimeManager::ScheduleTimeout(thread, duration)`
(4.4), whose implementation file is missing: inserts an entry into the
deadline-ordered collection. -/
def ScheduleTimeout (t deadline : Nat) (s : TMState) : TMState :=
  ⟨s.entries ++ [(t, deadline)]⟩

/-- Modelled from the spec: `TimeManager::Unschedule(thread)` (4.4): removes
the thread's pending entry; removing an absent entry is not an error. -/
def Unschedule (t : Nat) (s : TMState) : TMState :=
  ⟨s.entries.filter (fun e => e.1 ≠ t)⟩

/-- Canonical per-byte swizzled offset of the subrect routines when the
subrectangle stays inside the first horizontal row of blocks: row `y`,
byte column `b`, block height `bh` GOBs. -/
def gobLinear (bh y b : Nat) : Nat :=
  y / 8 * 512 + b / 64 * (512 * bh) + swizzleTableEntry 1 y (b % 64)

/-- Decode the GOB row from a swizzle-table value (inverse of
`swizzleTableEntry 1`). -/
def decY (v : Nat) : Nat := v / 64 % 4 * 2 + v / 16 % 2

/-- Decode the GOB byte column from a swizzle-table value. -/
def decM (v : Nat) : Nat := v / 256 % 2 * 32 + v / 32 % 2 * 16 + v % 16

/-- Thread `r` is selected over thread `t` even though `t` is earlier in the
FIFO queue of core `c`: strictly higher priority, or equal priority with only
`r` hinted to `c` (spec 4.1). -/
def StrictlyPreferred (c : Nat) (r t : KThread) : Prop :=
  r.priority < t.priority ∨ (r.priority = t.priority ∧ r.idealCore = c ∧ t.idealCore ≠ c)

/-- Thread `r` is at least as good a choice for core `c` as a thread `t`
queued after it. -/
def WeaklyPreferred (c : Nat) (r t : KThread) : Prop :=
  r.priority < t.priority ∨ (r.priority = t.priority ∧ (r.idealCore = c ∨ t.idealCore ≠ c))

/-! ## General lemmas about byte-write application -/

/-- Unfolding one step of `applyW`. -/
theorem applyW_cons (src : Nat → Nat) (w : Nat × Nat) (ws : List (Nat × Nat)) (dst : Nat → Nat) :
    applyW src (w :: ws) dst =
      applyW src ws (fun a2 => if a2 = w.1 then src w.2 else dst a2) := rfl

/-- A byte address no write targets is left unchanged. -/
theorem applyW_nmem (src : Nat → Nat) (ws : List (Nat × Nat)) (dst : Nat → Nat) (a : Nat)
    (h : ∀ w ∈ ws, w.1 ≠ a) : applyW src ws dst a = dst a := by
  induction ws generalizing dst with
  | nil => rfl
  | cons w ws ih =>
      have hne : w.1 ≠ a := h w (List.mem_cons_self _ _)
      have hrest : ∀ w2 ∈ ws, w2.1 ≠ a := fun w2 hw2 => h w2 (List.mem_cons_of_mem _ hw2)
      rw [applyW_cons, ih _ hrest]
      exact if_neg (fun hc => hne hc.symm)

/-- If some write targets `a` and every write targeting `a` copies the value
`v`, the final byte at `a` is `v`. -/
theorem applyW_last (src : Nat → Nat) (ws : List (Nat × Nat)) (dst : Nat → Nat) (a v : Nat)
    (hmem : ∃ w ∈ ws, w.1 = a) (hall : ∀ w ∈ ws, w.1 = a → src w.2 = v) :
    applyW src ws dst a = v := by
  induction ws generalizing dst with
  | nil => rcases hmem with ⟨w, hw, _⟩; cases hw
  | cons w ws ih =>
      rw [applyW_cons]
      by_cases hx : ∃ w2 ∈ ws, w2.1 = a
      · exact ih _ hx (fun w2 h2 he => hall w2 (List.mem_cons_of_mem _ h2) he)
      · push_neg at hx
        rw [applyW_nmem src ws _ a hx]
        rcases hmem with ⟨w3, hw3, he3⟩
        rcases List.mem_cons.mp hw3 with rfl | h3
        · rw [if_pos he3.symm]
          exact hall w3 (List.mem_cons_self _ _) he3
        · exact absurd he3 (hx w3 h3)

/-- Byte trace of an empty trace. -/
theorem byteTrace_nil : byteTrace [] = [] := rfl

/-- Byte trace of a cons. -/
theorem byteTrace_cons (op : CopyOp) (ops : List CopyOp) :
    byteTrace (op :: ops) = byteCopies op ++ byteTrace ops := rfl

/-- Byte traces concatenate over trace concatenation. -/
theorem byteTrace_append (l1 l2 : List CopyOp) :
    byteTrace (l1 ++ l2) = byteTrace l1 ++ byteTrace l2 :=
  List.flatMap_append ..

/-! ## Swizzle-table arithmetic -/

/-- Within one 16-byte cell the legacy swizzle table is additive. -/
theorem swizzle1_add (y m i : Nat) (hm : m < 64) (h : m % 16 + i < 16) :
    swizzleTableEntry 1 y m + i = swizzleTableEntry 1 y (m + i) := by
  unfold swizzleTableEntry
  simp only [Nat.mul_one]
  omega

/-- A fast-table entry for 16-byte group `q % 4`, advanced by `j < 16` bytes,
is the legacy-table entry of the corresponding byte column. -/
theorem swizzle16_split (y q j : Nat) (hj : j < 16) :
    swizzleTableEntry 16 y (q % 4) + j = swizzleTableEntry 1 y (16 * (q % 4) + j) := by
  unfold swizzleTableEntry
  simp only [Nat.mul_one]
  have h4 : q % 4 < 4 := Nat.mod_lt _ (by omega)
  omega

/-- A pixel whose size divides 16 never crosses a 16-byte cell boundary. -/
theorem pixel_mod16 (bpp k i : Nat) (hd : bpp ∣ 16) (hi : i < bpp) :
    k * bpp % 16 + i < 16 := by
  obtain ⟨d, hdEq⟩ := hd
  rcases Nat.eq_zero_or_pos d with hd0 | hd0
  · subst hd0; simp at hdEq
  have hmod : k * bpp % 16 = bpp * (k % d) := by
    rw [Nat.mul_comm k bpp, hdEq, Nat.mul_mod_mul_left]
  have hk : k % d + 1 ≤ d := Nat.mod_lt k hd0
  have hle : bpp * (k % d) + bpp ≤ bpp * d := by
    calc bpp * (k % d) + bpp = bpp * (k % d + 1) := by ring
      _ ≤ bpp * d := Nat.mul_le_mul_left _ hk
  omega

/-- Byte `i` of the pixel starting at byte column `x2` lies in the same GOB
column group, at the successive table position. -/
theorem swizzle1_byte (y x2 i : Nat) (h : x2 % 16 + i < 16) :
    swizzleTableEntry 1 y (x2 % 64) + i = swizzleTableEntry 1 y ((x2 + i) % 64) := by
  have h1 : (x2 + i) % 64 = x2 % 64 + i := by omega
  rw [h1]
  exact swizzle1_add y (x2 % 64) i (by omega) (by omega)

/-- Shift a `List.range` map to a `List.range'` map. -/
theorem range_map_shift (f : Nat → Nat × Nat) (a k : Nat) :
    (List.range k).map (fun i => f (a + i)) = (List.range' a k).map f := by
  rw [List.range'_eq_map_range, List.map_map]; rfl

/-- Ceiling division by 16 is exact on multiples of 16. -/
theorem divCeil16_exact (d : Nat) (h : 16 ∣ d) : divCeil d 16 * 16 = d := by
  unfold divCeil; omega

/-! ## Fast path refines precise path (claim C9) -/

/-- Byte expansion of one precise row: the pixel-by-pixel memcpys of
`PreciseProcessBlock` cover exactly the byte columns of the row, each at its
legacy swizzle offset, provided the pixel size divides 16. -/
theorem preciseRow_bytes (bpp : Nat) (hd : bpp ∣ 16) :
    ∀ (n xs ya pb y : Nat),
      byteTrace ((List.range' xs n).map (fun x =>
          ((ya + swizzleTableEntry 1 y (x * bpp % 64), x * bpp + pb, bpp) : CopyOp))) =
        (List.range' (xs * bpp) (n * bpp)).map
          (fun b => (ya + swizzleTableEntry 1 y (b % 64), pb + b)) := by
  intro n
  induction n with
  | zero => intro xs ya pb y; simp [byteTrace]
  | succ n ih =>
      intro xs ya pb y
      rw [show List.range' xs (n + 1) = xs :: List.range' (xs + 1) n from rfl, List.map_cons,
        byteTrace_cons, ih (xs + 1) ya pb y]
      have hhead : byteCopies
          ((ya + swizzleTableEntry 1 y (xs * bpp % 64), xs * bpp + pb, bpp) : CopyOp) =
          (List.range' (xs * bpp) bpp).map
            (fun b => (ya + swizzleTableEntry 1 y (b % 64), pb + b)) := by
        rw [← range_map_shift]
        unfold byteCopies
        refine List.map_congr_left (fun i hi => ?_)
        have hib : i < bpp := List.mem_range.mp hi
        have hcell : xs * bpp % 16 + i < 16 := pixel_mod16 bpp xs i hd hib
        have hsw := swizzle1_byte y (xs * bpp) i hcell
        simp only [Prod.mk.injEq]
        constructor
        · rw [Nat.add_assoc, hsw]
        · omega
      rw [hhead, ← List.map_append]
      congr 1
      have happ := List.range'_append (xs * bpp) bpp (n * bpp) 1
      rw [show (xs + 1) * bpp = xs * bpp + 1 * bpp from by ring,
        show (n + 1) * bpp = n * bpp + bpp from by ring]
      exact happ

/-- Byte expansion of one fast row: the 16-byte group memcpys of
`FastProcessBlock` cover exactly the byte columns of the row, each at the
same legacy swizzle offset, provided the row starts 16-byte aligned. -/
theorem fastRow_bytes (bpp : Nat) (hpos : 0 < bpp) :
    ∀ (m xsb ya pb y : Nat), 16 ∣ xsb →
      byteTrace ((List.range' xsb m 16).map (fun xb =>
          ((ya + swizzleTableEntry 16 y (xb / 16 % 4), xb * bpp / bpp + pb, 16) : CopyOp))) =
        (List.range' xsb (m * 16)).map
          (fun b => (ya + swizzleTableEntry 1 y (b % 64), pb + b)) := by
  intro m
  induction m with
  | zero => intro xsb ya pb y _; simp [byteTrace]
  | succ m ih =>
      intro xsb ya pb y h16
      rw [show List.range' xsb (m + 1) 16 = xsb :: List.range' (xsb + 16) m 16 from rfl,
        List.map_cons, byteTrace_cons, ih (xsb + 16) ya pb y (by omega)]
      have hhead : byteCopies
          ((ya + swizzleTableEntry 16 y (xsb / 16 % 4), xsb * bpp / bpp + pb, 16) : CopyOp) =
          (List.range' xsb 16).map
            (fun b => (ya + swizzleTableEntry 1 y (b % 64), pb + b)) := by
        rw [← range_map_shift]
        unfold byteCopies
        refine List.map_congr_left (fun j hj => ?_)
        have hjb : j < 16 := List.mem_range.mp hj
        obtain ⟨t, rfl⟩ := h16
        have hdivt : 16 * t / 16 = t := Nat.mul_div_cancel_left t (by omega)
        have hsp := swizzle16_split y (16 * t / 16) j hjb
        have hcol : 16 * (16 * t / 16 % 4) + j = (16 * t + j) % 64 := by
          rw [hdivt]; omega
        simp only [Prod.mk.injEq]
        constructor
        · rw [Nat.add_assoc, hsp, hcol]
        · have hxb : 16 * t * bpp / bpp = 16 * t := Nat.mul_div_cancel _ hpos
          rw [hxb]; omega
      rw [hhead, ← List.map_append]
      congr 1
      have happ := List.range'_append xsb 16 (m * 16) 1
      rw [show (m + 1) * 16 = m * 16 + 16 from by ring]
      simpa using happ

/-- One fast row writes exactly the same bytes as the corresponding precise
row when the pixel size divides 16 and both row extents are 16-byte aligned. -/
theorem row_eq (bpp xs xe ya pb y : Nat) (hd : bpp ∣ 16)
    (hs : 16 ∣ xs * bpp) (he : 16 ∣ xe * bpp - xs * bpp) :
    byteTrace (fastRow ya pb y (xs * bpp) (xe * bpp) bpp bpp) =
      byteTrace (preciseRow ya pb y xs xe bpp bpp) := by
  have hpos : 0 < bpp := by
    rcases Nat.eq_zero_or_pos bpp with h0 | h0
    · subst h0; simp at hd
    · exact h0
  unfold fastRow preciseRow
  rw [show GOB_SIZE_X = 64 from rfl]
  rw [fastRow_bytes bpp hpos (divCeil (xe * bpp - xs * bpp) 16) (xs * bpp) ya pb y hs,
    preciseRow_bytes bpp hd (xe - xs) xs ya pb y]
  congr 1
  rw [divCeil16_exact _ he, Nat.sub_mul]

/-- The fast and precise y-loops write the same bytes row by row. -/
theorem rows_eq (bpp xs xe stride : Nat) (hd : bpp ∣ 16)
    (hs : 16 ∣ xs * bpp) (he : 16 ∣ xe * bpp - xs * bpp) :
    ∀ (cnt y ya pb : Nat),
      byteTrace (fastRows (xs * bpp) (xe * bpp) bpp bpp stride cnt y ya pb) =
        byteTrace (preciseRows xs xe bpp bpp stride cnt y ya pb) := by
  intro cnt
  induction cnt with
  | zero => intro y ya pb; rfl
  | succ cnt ih =>
      intro y ya pb
      unfold fastRows preciseRows
      rw [byteTrace_append, byteTrace_append, row_eq bpp xs xe ya pb y hd hs he, ih]

/-- The fast and precise z-loops write the same bytes slice by slice. -/
theorem slices_eq (bpp xs xe ys ye stride xybs lz : Nat) (hd : bpp ∣ 16)
    (hs : 16 ∣ xs * bpp) (he : 16 ∣ xe * bpp - xs * bpp) :
    ∀ (cnt z zaddr : Nat),
      byteTrace (fastSlices (xs * bpp) (xe * bpp) ys ye bpp bpp stride xybs lz cnt z zaddr) =
        byteTrace (preciseSlices xs xe ys ye bpp bpp stride xybs lz cnt z zaddr) := by
  intro cnt
  induction cnt with
  | zero => intro z zaddr; rfl
  | succ cnt ih =>
      intro z zaddr
      unfold fastSlices preciseSlices
      rw [byteTrace_append, byteTrace_append, rows_eq bpp xs xe stride hd hs he, ih]

/-- `FastProcessBlock` writes the same bytes as `PreciseProcessBlock` on any
block whose x-extent is 16-byte aligned, for a pixel size dividing 16. -/
theorem processBlock_eq (bpp xs ys zs xe ye ze tile xybs lz stride : Nat) (hd : bpp ∣ 16)
    (hs : 16 ∣ xs * bpp) (he : 16 ∣ xe * bpp - xs * bpp) :
    byteTrace (FastProcessBlock xs ys zs xe ye ze tile xybs lz stride bpp bpp) =
      byteTrace (PreciseProcessBlock xs ys zs xe ye ze tile xybs lz stride bpp bpp) := by
  unfold FastProcessBlock PreciseProcessBlock
  exact slices_eq bpp xs xe ys ye stride xybs lz hd hs he (ze - zs) zs tile

/-- The block column loop of `SwizzledData` produces the same bytes under
both template instantiations: each block's x-extent is 16-byte aligned when
the pixel size divides 16 and the row byte width is a multiple of 16. -/
theorem blocksX_eq (bpp width ys ye zs ze xybs bs lz stride : Nat) (hd : bpp ∣ 16)
    (hw : 16 ∣ width * bpp) :
    ∀ (cnt xb tile : Nat),
      byteTrace (swizzledBlocksX true width (64 / bpp) ys ye zs ze xybs bs lz stride bpp bpp
          cnt xb tile) =
        byteTrace (swizzledBlocksX false width (64 / bpp) ys ye zs ze xybs bs lz stride bpp bpp
          cnt xb tile) := by
  have hd64 : bpp ∣ 64 := dvd_trans hd (by norm_num)
  have hcancel : 64 / bpp * bpp = 64 := Nat.div_mul_cancel hd64
  intro cnt
  induction cnt with
  | zero => intro xb tile; rfl
  | succ cnt ih =>
      intro xb tile
      unfold swizzledBlocksX
      simp only [if_true, if_false, Bool.false_eq_true, ite_true, ite_false]
      rw [byteTrace_append, byteTrace_append, ih]
      congr 1
      have hs : 16 ∣ xb * (64 / bpp) * bpp := by
        rw [Nat.mul_assoc, hcancel]
        exact Dvd.dvd.mul_left (by norm_num) xb
      have he : 16 ∣ min width (xb * (64 / bpp) + 64 / bpp) * bpp - xb * (64 / bpp) * bpp := by
        rcases Nat.le_total width (xb * (64 / bpp) + 64 / bpp) with hle | hle
        · rw [Nat.min_eq_left hle]
          exact Nat.dvd_sub' hw hs
        · rw [Nat.min_eq_right hle, Nat.add_mul, Nat.mul_assoc xb, hcancel]
          omega
      exact processBlock_eq bpp (xb * (64 / bpp)) ys zs
        (min width (xb * (64 / bpp) + 64 / bpp)) ye ze tile xybs lz stride hd hs he

/-- The block row loop of `SwizzledData` produces the same bytes under both
template instantiations. -/
theorem blocksY_eq (bpp width height bye bls zs ze xybs bs lz stride : Nat) (hd : bpp ∣ 16)
    (hw : 16 ∣ width * bpp) :
    ∀ (cnt yb tile : Nat),
      byteTrace (swizzledBlocksY true width height (64 / bpp) bye bls zs ze xybs bs lz stride
          bpp bpp cnt yb tile) =
        byteTrace (swizzledBlocksY false width height (64 / bpp) bye bls zs ze xybs bs lz stride
          bpp bpp cnt yb tile) := by
  intro cnt
  induction cnt with
  | zero => intro yb tile; rfl
  | succ cnt ih =>
      intro yb tile
      unfold swizzledBlocksY
      rw [byteTrace_append, byteTrace_append, ih, blocksX_eq bpp width _ _ _ _ xybs bs lz stride
        hd hw bls 0 tile]

/-- The block slice loop of `SwizzledData` produces the same bytes under both
template instantiations. -/
theorem blocksZ_eq (bpp width height depth bye bze blx bly xybs bs lz stride : Nat)
    (hd : bpp ∣ 16) (hw : 16 ∣ width * bpp) :
    ∀ (cnt zb tile : Nat),
      byteTrace (swizzledBlocksZ true width height depth (64 / bpp) bye bze blx bly xybs bs lz
          stride bpp bpp cnt zb tile) =
        byteTrace (swizzledBlocksZ false width height depth (64 / bpp) bye bze blx bly xybs bs
          lz stride bpp bpp cnt zb tile) := by
  intro cnt
  induction cnt with
  | zero => intro zb tile; rfl
  | succ cnt ih =>
      intro zb tile
      unfold swizzledBlocksZ
      rw [byteTrace_append, byteTrace_append, ih,
        blocksY_eq bpp width height bye blx _ _ xybs bs lz stride hd hw bly 0 tile]

/-- `SwizzledData<true>` and `SwizzledData<false>` emit the same byte writes
on every fast-path input whose pixel size divides 16 and whose output pixel
size equals the input pixel size. -/
theorem swizzledData_eq (width height depth bpp bh bd wsp : Nat) (hd : bpp ∣ 16)
    (hw : width * bpp % 16 = 0) :
    byteTrace (SwizzledData true width height depth bpp bpp bh bd wsp) =
      byteTrace (SwizzledData false width height depth bpp bpp bh bd wsp) := by
  unfold SwizzledData
  rw [show GOB_SIZE_X = 64 from rfl]
  exact blocksZ_eq bpp width height depth (GOB_SIZE_Y * bh) (1 * bd) _ _ (GOB_SIZE * bh)
    (GOB_SIZE * bh * bd) (height * (width * bpp)) (width * bpp) hd
    (Nat.dvd_of_mod_eq_zero hw) _ 0 0

/-- C9 (amended): on every input where `CopySwizzledData` selects the fast
path (`bytes_per_pixel % 3 ≠ 0` and `width * bytes_per_pixel` divisible by
16), with `out_bytes_per_pixel` equal to `bytes_per_pixel` and — the
amendment forced by the counterexample — `bytes_per_pixel` dividing 16, the
fast implementation `SwizzledData<true>` writes exactly the same bytes to
the destination buffer as the precise implementation `SwizzledData<false>`,
in either copy direction and from any initial buffer contents. -/
theorem C9_fast_precise_equiv (width height depth bpp bh bd wsp : Nat)
    (h3 : bpp % 3 ≠ 0) (hw : width * bpp % 16 = 0) (hd : bpp ∣ 16)
    (unswizzle : Bool) (swizzled unswizzled : Nat → Nat) :
    runCopies unswizzle (SwizzledData true width height depth bpp bpp bh bd wsp)
        swizzled unswizzled =
      runCopies unswizzle (SwizzledData false width height depth bpp bpp bh bd wsp)
        swizzled unswizzled := by
  unfold runCopies
  rw [swizzledData_eq width height depth bpp bh bd wsp hd hw]

/-- Witness for C9: a concrete fast-path input (width 4, height 10, depth 2,
4 bytes per pixel, block height 2) on which the theorem applies. -/
theorem C9_witness :
    runCopies false (SwizzledData true 4 10 2 4 4 2 1 1) (fun _ => 0) (fun a => 2 * a + 7) =
      runCopies false (SwizzledData false 4 10 2 4 4 2 1 1) (fun _ => 0) (fun a => 2 * a + 7) :=
  C9_fast_precise_equiv 4 10 2 4 2 1 1 (by decide) (by decide) (by decide) false
    (fun _ => 0) (fun a => 2 * a + 7)

/-- C9 counterexample: with `bytes_per_pixel = 5` and `width = 16` the fast
path is selected (`5 % 3 ≠ 0`, `16 * 5 % 16 = 0`) and
`out_bytes_per_pixel = bytes_per_pixel`, yet swizzling writes different bytes:
at swizzled offset 32 the fast path stores source byte 16 (value 17 here)
while the precise path leaves the destination untouched (value 0). -/
theorem C9_counterexample :
    (5 % 3 ≠ 0 ∧ 16 * 5 % 16 = 0) ∧
      runCopies false (SwizzledData true 16 1 1 5 5 1 1 1) (fun _ => 0) (fun a => a + 1) 32 ≠
        runCopies false (SwizzledData false 16 1 1 5 5 1 1 1) (fun _ => 0) (fun a => a + 1) 32
    := by
  constructor
  · decide
  · decide

/-! ## Subrect swizzle roundtrip (claim C10) -/

/-- Legacy swizzle-table values stay below one GOB. -/
theorem swizzle1_lt (y m : Nat) : swizzleTableEntry 1 y m < 512 := by
  unfold swizzleTableEntry
  simp only [Nat.mul_one]
  omega

/-- The legacy table only depends on the row modulo 8 and the column modulo
64. -/
theorem swizzle1_norm (y m : Nat) :
    swizzleTableEntry 1 y m = swizzleTableEntry 1 (y % 8) (m % 64) := by
  unfold swizzleTableEntry
  simp only [Nat.mul_one]
  omega

/-- The decoders invert the legacy swizzle table on one GOB. -/
theorem swizzle1_decode :
    ∀ y < 8, ∀ m < 64,
      decY (swizzleTableEntry 1 y m) = y ∧ decM (swizzleTableEntry 1 y m) = m := by decide

/-- The legacy swizzle table is injective on (row mod 8, column mod 64). -/
theorem swizzle1_inj (y1 m1 y2 m2 : Nat)
    (h : swizzleTableEntry 1 y1 m1 = swizzleTableEntry 1 y2 m2) :
    y1 % 8 = y2 % 8 ∧ m1 % 64 = m2 % 64 := by
  rw [swizzle1_norm y1 m1, swizzle1_norm y2 m2] at h
  have d1 := swizzle1_decode (y1 % 8) (Nat.mod_lt _ (by omega)) (m1 % 64) (Nat.mod_lt _ (by omega))
  have d2 := swizzle1_decode (y2 % 8) (Nat.mod_lt _ (by omega)) (m2 % 64) (Nat.mod_lt _ (by omega))
  constructor
  · rw [← d1.1, ← d2.1, h]
  · rw [← d1.2, ← d2.2, h]

/-- Within the first horizontal row of blocks the per-byte swizzled offset
determines the row and the byte column uniquely. -/
theorem gobLinear_inj (bh y1 y2 b1 b2 : Nat) (hbh : 0 < bh)
    (hy1 : y1 < 8 * bh) (hy2 : y2 < 8 * bh)
    (h : gobLinear bh y1 b1 = gobLinear bh y2 b2) : y1 = y2 ∧ b1 = b2 := by
  unfold gobLinear at h
  have ht1 : swizzleTableEntry 1 y1 (b1 % 64) < 512 := swizzle1_lt ..
  have ht2 : swizzleTableEntry 1 y2 (b2 % 64) < 512 := swizzle1_lt ..
  have hk1 : y1 / 8 * 512 + b1 / 64 * (512 * bh) = 512 * (y1 / 8 + b1 / 64 * bh) := by ring
  have hk2 : y2 / 8 * 512 + b2 / 64 * (512 * bh) = 512 * (y2 / 8 + b2 / 64 * bh) := by ring
  rw [hk1] at h
  rw [hk2] at h
  have hT : swizzleTableEntry 1 y1 (b1 % 64) = swizzleTableEntry 1 y2 (b2 % 64) := by omega
  have hK : y1 / 8 + b1 / 64 * bh = y2 / 8 + b2 / 64 * bh := by omega
  obtain ⟨hy8, hb64⟩ := swizzle1_inj _ _ _ _ hT
  have hq1 : y1 / 8 < bh := by omega
  have hq2 : y2 / 8 < bh := by omega
  have hyq : y1 / 8 = y2 / 8 := by
    have e1 : (y1 / 8 + b1 / 64 * bh) % bh = y1 / 8 := by
      rw [Nat.add_mul_mod_self_right]
      exact Nat.mod_eq_of_lt hq1
    have e2 : (y2 / 8 + b2 / 64 * bh) % bh = y2 / 8 := by
      rw [Nat.add_mul_mod_self_right]
      exact Nat.mod_eq_of_lt hq2
    rw [← e1, ← e2, hK]
    
  have hbq : b1 / 64 = b2 / 64 := by
    have : b1 / 64 * bh = b2 / 64 * bh := by omega
    exact Nat.eq_of_mul_eq_mul_right hbh this
  constructor
  · omega
  · omega

/-- Uniqueness of the pixel/byte decomposition of a byte column. -/
theorem euclid_unique (bpp a b i j : Nat) (hi : i < bpp) (hj : j < bpp)
    (h : a * bpp + i = b * bpp + j) : a = b ∧ i = j := by
  have hpos : 0 < bpp := by omega
  have ha : (i + a * bpp) / bpp = a := by
    rw [Nat.add_mul_div_right _ _ hpos, Nat.div_eq_of_lt hi, Nat.zero_add]
  have hb : (j + b * bpp) / bpp = b := by
    rw [Nat.add_mul_div_right _ _ hpos, Nat.div_eq_of_lt hj, Nat.zero_add]
  have hab : a = b := by
    rw [← ha, ← hb]
    congr 1
    omega
  refine ⟨hab, ?_⟩
  subst hab
  omega

/-- Normal form of the per-byte swizzled offset computed by both subrect
routines when the target row lies in the first horizontal row of blocks; the
`extra` factor absorbs `SwizzleSubrect`'s additional `image_width_in_gobs`
multiplier, which is irrelevant because the block-row index is zero. -/
theorem subrectOff_norm (bh extra y2 x2 i : Nat) (hy : y2 < 8 * bh)
    (hcell : x2 % 16 + i < 16) :
    y2 / (8 * bh) * extra + y2 % (8 * bh) / 8 * 512 + x2 / 64 * 512 * bh +
        swizzleTableEntry 1 y2 (x2 % 64) + i =
      gobLinear bh y2 (x2 + i) := by
  have h0 : y2 / (8 * bh) = 0 := Nat.div_eq_of_lt hy
  have h1 : y2 % (8 * bh) = y2 := Nat.mod_eq_of_lt hy
  have hq : (x2 + i) / 64 = x2 / 64 := by omega
  have hm : (x2 + i) % 64 = x2 % 64 + i := by omega
  unfold gobLinear
  rw [h0, h1, hq, hm, ← swizzle1_add y2 (x2 % 64) i (by omega) (by omega)]
  ring

/-- Byte-level membership in a trace. -/
theorem mem_byteTrace_iff (ops : List CopyOp) (p : Nat × Nat) :
    p ∈ byteTrace ops ↔ ∃ s u len, (s, u, len) ∈ ops ∧ ∃ i < len, p = (s + i, u + i) := by
  simp only [byteTrace, byteCopies, List.mem_flatMap, List.mem_map, List.mem_range]
  constructor
  · rintro ⟨⟨s, u, len⟩, hmem, i, hi, hp⟩
    exact ⟨s, u, len, hmem, i, hi, hp.symm⟩
  · rintro ⟨s, u, len, hmem, i, hi, hp⟩
    exact ⟨⟨s, u, len⟩, hmem, i, hi, hp.symm⟩

/-- The memcpys emitted by `SwizzleSubrect`, explicitly. -/
theorem mem_swizzleSubrect (w h pitch swidth bpp bhb ox oy : Nat) (op : CopyOp) :
    op ∈ SwizzleSubrect w h pitch swidth bpp bhb ox oy ↔
      ∃ line < h, ∃ x < w,
        op = ((line + oy) / (8 * 2 ^ bhb) * 512 * 2 ^ bhb * ((swidth * bpp + 63) / 64) +
              (line + oy) % (8 * 2 ^ bhb) / 8 * 512 +
              (x + ox) * bpp / 64 * 512 * 2 ^ bhb +
              swizzleTableEntry 1 (line + oy) ((x + ox) * bpp % 64),
              line * pitch + x * bpp, bpp) := by
  simp only [SwizzleSubrect, List.mem_flatMap, List.mem_map, List.mem_range,
    GOB_SIZE_X, GOB_SIZE_Y, GOB_SIZE]
  constructor
  · rintro ⟨line, hl, x, hx, hp⟩
    exact ⟨line, hl, x, hx, hp.symm⟩
  · rintro ⟨line, hl, x, hx, hp⟩
    exact ⟨line, hl, x, hx, hp.symm⟩

/-- The memcpys emitted by `UnswizzleSubrect`, explicitly. -/
theorem mem_unswizzleSubrect (w h pitch swidth bpp bhb ox oy : Nat) (op : CopyOp) :
    op ∈ UnswizzleSubrect w h pitch swidth bpp bhb ox oy ↔
      ∃ line < h, ∃ x < w,
        op = ((line + oy) / (8 * 2 ^ bhb) * 512 * 2 ^ bhb +
              (line + oy) % (8 * 2 ^ bhb) / 8 * 512 +
              (x + ox) * bpp / 64 * 512 * 2 ^ bhb +
              swizzleTableEntry 1 (line + oy) ((x + ox) * bpp % 64),
              line * pitch + x * bpp, bpp) := by
  simp only [UnswizzleSubrect, List.mem_flatMap, List.mem_map, List.mem_range,
    GOB_SIZE_X, GOB_SIZE_Y, GOB_SIZE]
  constructor
  · rintro ⟨line, hl, x, hx, hp⟩
    exact ⟨line, hl, x, hx, hp.symm⟩
  · rintro ⟨line, hl, x, hx, hp⟩
    exact ⟨line, hl, x, hx, hp.symm⟩

/-- Swizzling (`unswizzle = false`) keeps the trace's destination/source
orientation. -/
theorem dirWrites_false (l : List (Nat × Nat)) : dirWrites false l = l := by
  simp [dirWrites]

/-- Unswizzling (`unswizzle = true`) swaps each byte pair's orientation. -/
theorem dirWrites_true (l : List (Nat × Nat)) :
    dirWrites true l = l.map (fun p => (p.2, p.1)) := by
  simp [dirWrites]

/-- Normal form of `SwizzleSubrect`'s per-byte destination offset inside the
first horizontal row of blocks. -/
theorem swizzleSubrectOff_norm (bhb iwg y2 x2 i : Nat) (hy : y2 < 8 * 2 ^ bhb)
    (hcell : x2 % 16 + i < 16) :
    y2 / (8 * 2 ^ bhb) * 512 * 2 ^ bhb * iwg + y2 % (8 * 2 ^ bhb) / 8 * 512 +
        x2 / 64 * 512 * 2 ^ bhb + swizzleTableEntry 1 y2 (x2 % 64) + i =
      gobLinear (2 ^ bhb) y2 (x2 + i) := by
  have h0 : y2 / (8 * 2 ^ bhb) = 0 := Nat.div_eq_of_lt hy
  have h1 : y2 % (8 * 2 ^ bhb) = y2 := Nat.mod_eq_of_lt hy
  have hq : (x2 + i) / 64 = x2 / 64 := by omega
  have hm : (x2 + i) % 64 = x2 % 64 + i := by omega
  unfold gobLinear
  rw [h0, h1, hq, hm, ← swizzle1_add y2 (x2 % 64) i (by omega) (by omega)]
  ring

/-- Normal form of `UnswizzleSubrect`'s per-byte source offset inside the
first horizontal row of blocks: it coincides with `SwizzleSubrect`'s
destination offset there. -/
theorem unswizzleSubrectOff_norm (bhb y2 x2 i : Nat) (hy : y2 < 8 * 2 ^ bhb)
    (hcell : x2 % 16 + i < 16) :
    y2 / (8 * 2 ^ bhb) * 512 * 2 ^ bhb + y2 % (8 * 2 ^ bhb) / 8 * 512 +
        x2 / 64 * 512 * 2 ^ bhb + swizzleTableEntry 1 y2 (x2 % 64) + i =
      gobLinear (2 ^ bhb) y2 (x2 + i) := by
  have h0 : y2 / (8 * 2 ^ bhb) = 0 := Nat.div_eq_of_lt hy
  have h1 : y2 % (8 * 2 ^ bhb) = y2 := Nat.mod_eq_of_lt hy
  have hq : (x2 + i) / 64 = x2 / 64 := by omega
  have hm : (x2 + i) % 64 = x2 % 64 + i := by omega
  unfold gobLinear
  rw [h0, h1, hq, hm, ← swizzle1_add y2 (x2 % 64) i (by omega) (by omega)]
  ring

/-- After `SwizzleSubrect`, the swizzled buffer holds each source byte of the
subrectangle at its canonical offset: the write targeting that offset is
unique, so no later memcpy clobbers it. -/
theorem swizzleSubrect_reads (w h pitch swidth bpp bhb ox oy : Nat) (src swzInit : Nat → Nat)
    (hd : bpp ∣ 16) (hyb : oy + h ≤ 8 * 2 ^ bhb) (line x i : Nat)
    (hl : line < h) (hx : x < w) (hi : i < bpp) :
    runCopies false (SwizzleSubrect w h pitch swidth bpp bhb ox oy) swzInit src
        (gobLinear (2 ^ bhb) (line + oy) ((x + ox) * bpp + i)) =
      src (line * pitch + x * bpp + i) := by
  have hbh : 0 < 2 ^ bhb := pow_pos (by norm_num) bhb
  unfold runCopies
  rw [dirWrites_false]
  refine applyW_last _ _ _ _ _ ?_ ?_
  · refine ⟨((line + oy) / (8 * 2 ^ bhb) * 512 * 2 ^ bhb * ((swidth * bpp + 63) / 64) +
        (line + oy) % (8 * 2 ^ bhb) / 8 * 512 +
        (x + ox) * bpp / 64 * 512 * 2 ^ bhb +
        swizzleTableEntry 1 (line + oy) ((x + ox) * bpp % 64) + i,
        line * pitch + x * bpp + i), ?_, ?_⟩
    · refine (mem_byteTrace_iff _ _).mpr ⟨_, _, _, ?_, i, hi, rfl⟩
      exact (mem_swizzleSubrect w h pitch swidth bpp bhb ox oy _).mpr ⟨line, hl, x, hx, rfl⟩
    · exact swizzleSubrectOff_norm bhb _ (line + oy) ((x + ox) * bpp) i (by omega)
        (pixel_mod16 bpp (x + ox) i hd hi)
  · rintro wE hwE heq
    obtain ⟨s, u, len, hop, j, hj, rfl⟩ := (mem_byteTrace_iff _ _).mp hwE
    obtain ⟨l2, hl2, x2, hx2, hopEq⟩ := (mem_swizzleSubrect w h pitch swidth bpp bhb ox oy _).mp hop
    injection hopEq with h1 h23
    injection h23 with h2 h3
    subst h1 h2
    rw [h3] at hj
    have hnorm := swizzleSubrectOff_norm bhb ((swidth * bpp + 63) / 64) (l2 + oy)
      ((x2 + ox) * bpp) j (by omega) (pixel_mod16 bpp (x2 + ox) j hd hj)
    simp only [] at heq
    rw [hnorm] at heq
    obtain ⟨hyEq, hbEq⟩ := gobLinear_inj (2 ^ bhb) (l2 + oy) (line + oy) _ _ hbh
      (by omega) (by omega) heq
    have hl2line : l2 = line := by omega
    obtain ⟨hxEq, hij⟩ := euclid_unique bpp (x2 + ox) (x + ox) j i hj hi hbEq
    have hx2x : x2 = x := by omega
    subst hl2line hx2x hij
    rfl

/-- Unswizzling runs the swapped byte writes against the unswizzled buffer,
reading the swizzled buffer. -/
theorem runCopies_true (ops : List CopyOp) (swz lin : Nat → Nat) :
    runCopies true ops swz lin = applyW swz (dirWrites true (byteTrace ops)) lin := rfl

/-- C10 (amended): with the same subrectangle parameters and `dest_pitch`
equal to `source_pitch`, and — the amendments forced by the counterexamples —
`bytes_per_pixel` dividing 16 and the subrectangle contained in the first
horizontal row of blocks (`offset_y + subrect_height ≤ GOB_SIZE_Y *
2^block_height_bit`), running `UnswizzleSubrect` on the output of
`SwizzleSubrect` recovers the original unswizzled source byte at every
position of the subrectangle, from any initial buffer contents. -/
theorem C10_subrect_roundtrip (w h pitch swidth bpp bhb ox oy : Nat)
    (src swzInit outInit : Nat → Nat) (hd : bpp ∣ 16) (hyb : oy + h ≤ 8 * 2 ^ bhb)
    (line x i : Nat) (hl : line < h) (hx : x < w) (hi : i < bpp) :
    runCopies true (UnswizzleSubrect w h pitch swidth bpp bhb ox oy)
        (runCopies false (SwizzleSubrect w h pitch swidth bpp bhb ox oy) swzInit src)
        outInit (line * pitch + x * bpp + i) =
      src (line * pitch + x * bpp + i) := by
  have hbh : 0 < 2 ^ bhb := pow_pos (by norm_num) bhb
  rw [runCopies_true, dirWrites_true]
  refine applyW_last _ _ _ _ _ ?_ ?_
  · refine ⟨(line * pitch + x * bpp + i,
        (line + oy) / (8 * 2 ^ bhb) * 512 * 2 ^ bhb +
        (line + oy) % (8 * 2 ^ bhb) / 8 * 512 +
        (x + ox) * bpp / 64 * 512 * 2 ^ bhb +
        swizzleTableEntry 1 (line + oy) ((x + ox) * bpp % 64) + i), ?_, rfl⟩
    refine List.mem_map.mpr ⟨(_, _), ?_, rfl⟩
    refine (mem_byteTrace_iff _ _).mpr ⟨_, _, _, ?_, i, hi, rfl⟩
    exact (mem_unswizzleSubrect w h pitch swidth bpp bhb ox oy _).mpr ⟨line, hl, x, hx, rfl⟩
  · rintro wE hwE heq
    obtain ⟨p, hp, hswap⟩ := List.mem_map.mp hwE
    obtain ⟨s, u, len, hop, j, hj, rfl⟩ := (mem_byteTrace_iff _ _).mp hp
    obtain ⟨l2, hl2, x2, hx2, hopEq⟩ :=
      (mem_unswizzleSubrect w h pitch swidth bpp bhb ox oy _).mp hop
    injection hopEq with h1 h23
    injection h23 with h2 h3
    subst h1 h2
    rw [h3] at hj
    subst hswap
    simp only [] at heq ⊢
    rw [unswizzleSubrectOff_norm bhb (l2 + oy) ((x2 + ox) * bpp) j (by omega)
      (pixel_mod16 bpp (x2 + ox) j hd hj)]
    rw [swizzleSubrect_reads w h pitch swidth bpp bhb ox oy src swzInit hd hyb l2 x2 j
      hl2 hx2 hj]
    rw [heq]

/-- Witness for C10: a concrete subrectangle (5 wide, 9 high, offsets (3, 6),
4 bytes per pixel, block height 2, pitch 40) on which the amended roundtrip
theorem applies at position (line 7, x 4, byte 2). -/
theorem C10_witness :
    runCopies true (UnswizzleSubrect 5 9 40 128 4 1 3 6)
        (runCopies false (SwizzleSubrect 5 9 40 128 4 1 3 6) (fun _ => 0) (fun a => 3 * a + 1))
        (fun _ => 0) (7 * 40 + 4 * 4 + 2) =
      (fun a => 3 * a + 1) (7 * 40 + 4 * 4 + 2) :=
  C10_subrect_roundtrip 5 9 40 128 4 1 3 6 (fun a => 3 * a + 1) (fun _ => 0) (fun _ => 0)
    (by decide) (by decide) 7 4 2 (by decide) (by decide) (by decide)

/-- C10 counterexample: with one byte per pixel, block height bit 0, a
128-pixel-wide swizzled image (two GOBs wide) and a 1-by-9 subrectangle at
offset (0, 0) with equal pitches, the roundtrip loses the byte of line 8:
`SwizzleSubrect` stores it at offset 1024 (its `gob_address_y` carries the
`image_width_in_gobs` factor) but `UnswizzleSubrect` reads offset 512, so the
output byte (0) differs from the source byte (9). -/
theorem C10_counterexample :
    runCopies true (UnswizzleSubrect 1 9 1 128 1 0 0 0)
        (runCopies false (SwizzleSubrect 1 9 1 128 1 0 0 0) (fun _ => 0) (fun a => a + 1))
        (fun _ => 0) (8 * 1 + 0 * 1 + 0) ≠
      (fun a => a + 1) (8 * 1 + 0 * 1 + 0) := by
  decide

/-! ## Claim C1: single-consumer resumption -/

/-- A thread whose resolution flag is already claimed is never touched again:
every further path is a no-op and performs no resumption. -/
theorem resumeRun_stuck (ps : List ResumePath) :
    ∀ (s : BlockedThread) (k : Nat), s.resolution.isSome →
      ps.foldl (fun acc p =>
        let r := resumeStep acc.1 p
        (r.1, acc.2 + if r.2 then 1 else 0)) (s, k) = (s, k) := by
  induction ps with
  | nil => intro s k _; rfl
  | cons p ps ih =>
      intro s k hres
      obtain ⟨o, ho⟩ := Option.isSome_iff_exists.mp hres
      have hstep : resumeStep s p = (s, false) := by
        unfold resumeStep
        rw [ho]
      simp only [List.foldl_cons, hstep]
      exact ih s k hres

/-- C1: for a thread blocked in WaitSynchronization and any interleaving of
the Signal, Timeout and Cancel paths (at least one of which runs), exactly
the first path claims the thread's single resolution flag and performs the
resumption; the thread ends resumed with that path's single outcome, is no
longer registered on any wait list, the resumption count is exactly one, and
each path arriving after the flag is claimed is a no-op. -/
theorem C1_single_resumption (p : ResumePath) (ps : List ResumePath) :
    resumeRun initBlocked (p :: ps) =
      ({ resolution := some (pathOutcome p), registered := false }, 1) ∧
    ∀ (s : BlockedThread) (q : ResumePath), s.resolution ≠ none → resumeStep s q = (s, false) := by
  constructor
  · unfold resumeRun
    simp only [List.foldl_cons]
    have hstep : resumeStep initBlocked p =
        ({ resolution := some (pathOutcome p), registered := false }, true) := rfl
    rw [hstep]
    exact resumeRun_stuck ps _ 1 rfl
  · intro s q hs
    unfold resumeStep
    cases hres : s.resolution with
    | none => exact absurd hres hs
    | some o => rfl

/-- Witness for C1: after a Signal has claimed the flag, a Timeout arriving
later is a no-op. -/
theorem C1_witness :
    resumeStep { resolution := some .signaled, registered := false } .timeoutPath =
      ({ resolution := some .signaled, registered := false }, false) :=
  (C1_single_resumption .signalPath []).2 _ _ (by decide)

/-! ## Claim C8: Unschedule is idempotent -/

/-- C8: `Unschedule` is idempotent — removing a thread with no pending entry
(in particular immediately after a previous `Unschedule` of the same thread)
leaves the deadline collection unchanged and is not an error, and after any
`Unschedule` no entry for the thread remains. -/
theorem C8_unschedule_idempotent (s : TMState) (t : Nat) :
    Unschedule t (Unschedule t s) = Unschedule t s ∧
    ((∀ e ∈ s.entries, e.1 ≠ t) → Unschedule t s = s) ∧
    ∀ e ∈ (Unschedule t s).entries, e.1 ≠ t := by
  refine ⟨?_, ?_, ?_⟩
  · unfold Unschedule
    rw [TMState.mk.injEq, List.filter_filter]
    simp
  · intro hnone
    unfold Unschedule
    rw [TMState.mk.injEq]
    refine List.filter_eq_self.mpr (fun e he => ?_)
    exact decide_eq_true (hnone e he)
  · intro e he
    simp only [Unschedule] at he
    exact of_decide_eq_true (List.mem_filter.mp he).2

/-- Witness for C8: unscheduling thread 2 from a collection holding only an
entry for thread 1 changes nothing. -/
theorem C8_witness : Unschedule 2 ⟨[(1, 5)]⟩ = ⟨[(1, 5)]⟩ :=
  (C8_unschedule_idempotent ⟨[(1, 5)]⟩ 2).2.1 (by decide)

/-! ## Claim C7: an already-signaled object prevents suspension -/

/-- Specification of a successful `findIdx?`, generalized over the start
accumulator. -/
theorem findIdx?_some_spec {α : Type} (p : α → Bool) :
    ∀ (l : List α) (st i : Nat), List.findIdx? p l st = some i →
      st ≤ i ∧ (∃ a, l.get? (i - st) = some a ∧ p a = true) ∧
        ∀ j, j < i - st → ∃ b, l.get? j = some b ∧ p b = false := by
  intro l
  induction l with
  | nil => intro st i h; cases h
  | cons a l ih =>
      intro st i h
      rw [List.findIdx?_cons] at h
      by_cases hpa : p a = true
      · rw [if_pos hpa] at h
        injection h with h
        subst h
        refine ⟨Nat.le_refl _, ⟨a, by simp, hpa⟩, fun j hj => absurd hj (by omega)⟩
      · rw [if_neg hpa] at h
        obtain ⟨hle, ⟨a2, ha2, hpa2⟩, hbefore⟩ := ih (st + 1) i h
        refine ⟨by omega, ⟨a2, ?_, hpa2⟩, ?_⟩
        · rw [show i - st = (i - (st + 1)) + 1 from by omega]
          simpa using ha2
        · intro j hj
          cases j with
          | zero => exact ⟨a, by simp, by simpa using hpa⟩
          | succ k =>
              obtain ⟨b, hb, hpb⟩ := hbefore k (by omega)
              exact ⟨b, by simpa using hb, hpb⟩

/-- C7: whenever some object passed to `WaitSynchronization` is already
signaled, the call returns `Signaled(i)` for the lowest signaled index `i`
and the state is untouched: the caller is not suspended (its scheduling
state does not become Waiting), it is registered on no wait list, no timeout
is scheduled with the TimeManager, and no reschedule is requested. -/
theorem C7_no_suspension_when_signaled (tid : Nat) (timeout : Option Nat) (st : SyncState)
    (hsig : ∃ o ∈ st.objects, o.signaled = true) :
    ∃ i, (WaitSynchronization tid timeout st).1 = some (.SignaledAt i) ∧
      (WaitSynchronization tid timeout st).2 = st ∧
      (∃ ob, st.objects.get? i = some ob ∧ ob.signaled = true) ∧
      ∀ j ob, j < i → st.objects.get? j = some ob → ob.signaled = false := by
  have hne : st.objects.findIdx? (fun o => o.signaled) ≠ none := by
    intro hnone
    obtain ⟨o, ho, hs⟩ := hsig
    have := List.findIdx?_eq_none_iff.mp hnone o ho
    rw [hs] at this
    cases this
  obtain ⟨i, hi⟩ := Option.ne_none_iff_exists'.mp hne
  obtain ⟨_, ⟨ob, hob, hsob⟩, hbefore⟩ := findIdx?_some_spec _ st.objects 0 i hi
  refine ⟨i, ?_, ?_, ⟨ob, hob, hsob⟩, ?_⟩
  · unfold WaitSynchronization
    rw [hi]
  · unfold WaitSynchronization
    rw [hi]
  · intro j ob2 hj hob2
    obtain ⟨b, hb, hpb⟩ := hbefore j (by omega)
    rw [hob2] at hb
    injection hb with hb
    rw [hb]
    exact hpb

/-- Witness for C7: with the second of two objects signaled, the wait returns
index 1 immediately and the state is unchanged. -/
theorem C7_witness :
    ∃ i, (WaitSynchronization 7 (some 10)
        ⟨.running, [⟨false, []⟩, ⟨true, []⟩], [], false⟩).1 = some (.SignaledAt i) ∧
      (WaitSynchronization 7 (some 10)
        ⟨.running, [⟨false, []⟩, ⟨true, []⟩], [], false⟩).2 =
        ⟨.running, [⟨false, []⟩, ⟨true, []⟩], [], false⟩ ∧
      (∃ ob, ([⟨false, []⟩, ⟨true, []⟩] : List SyncObject).get? i = some ob ∧
        ob.signaled = true) ∧
      ∀ j ob, j < i →
        ([⟨false, []⟩, ⟨true, []⟩] : List SyncObject).get? j = some ob →
          ob.signaled = false :=
  C7_no_suspension_when_signaled 7 (some 10) ⟨.running, [⟨false, []⟩, ⟨true, []⟩], [], false⟩
    ⟨⟨true, []⟩, by decide, rfl⟩

/-! ## Claim C2: Signal wake semantics -/

/-- Unfolding equation of `signalOne` on a non-empty list. -/
theorem signalOne_cons_eq (a : Waiter) (l : List Waiter) :
    signalOne (a :: l) =
      match signalOne l with
      | none => some (a, [])
      | some (w2, ws2) =>
          if w2.priority < a.priority then some (w2, a :: ws2) else some (a, l) := rfl

/-- `signalOne` finds a waiter on every non-empty wait list. -/
theorem signalOne_ne_none (a : Waiter) (l : List Waiter) : signalOne (a :: l) ≠ none := by
  rw [signalOne_cons_eq]
  cases hsl : signalOne l with
  | none => simp
  | some p =>
      obtain ⟨w2, ws2⟩ := p
      by_cases hc : w2.priority < a.priority <;> simp [hc]

/-- Characterization of the mutex-kind waiter selection: `signalOne` returns
the earliest waiter of minimal priority value, and the remaining list is the
original list with exactly that waiter removed, in unchanged relative order. -/
theorem signalOne_spec :
    ∀ (l : List Waiter) (w : Waiter) (rest : List Waiter),
      signalOne l = some (w, rest) →
        ∃ pre post, l = pre ++ w :: post ∧ rest = pre ++ post ∧
          (∀ u ∈ pre, w.priority < u.priority) ∧ (∀ u ∈ post, w.priority ≤ u.priority) := by
  intro l
  induction l with
  | nil => intro w rest h; cases h
  | cons a l ih =>
      intro w rest h
      rw [signalOne_cons_eq] at h
      cases hrec : signalOne l with
      | none =>
          simp only [hrec] at h
          have hl : l = [] := by
            cases l with
            | nil => rfl
            | cons b l2 => exact absurd hrec (signalOne_ne_none b l2)
          subst hl
          injection h with h
          injection h with h1 h2
          subst h1 h2
          exact ⟨[], [], rfl, rfl, by simp, by simp⟩
      | some p =>
          obtain ⟨w2, ws2⟩ := p
          simp only [hrec] at h
          obtain ⟨pre2, post2, hl2, hrest2, hpre2, hpost2⟩ := ih w2 ws2 hrec
          by_cases hc : w2.priority < a.priority
          · rw [if_pos hc] at h
            injection h with h
            injection h with h1 h2
            subst h1 h2
            refine ⟨a :: pre2, post2, by rw [hl2]; simp, by rw [hrest2]; simp, ?_, hpost2⟩
            intro u hu
            rcases List.mem_cons.mp hu with rfl | hu2
            · exact hc
            · exact hpre2 u hu2
          · rw [if_neg hc] at h
            injection h with h
            injection h with h1 h2
            subst h1 h2
            refine ⟨[], l, rfl, rfl, by simp, ?_⟩
            intro u hu
            rw [hl2] at hu
            rcases List.mem_append.mp hu with hu2 | hu2
            · have := hpre2 u hu2
              omega
            · rcases List.mem_cons.mp hu2 with rfl | hu3
              · omega
              · have := hpost2 u hu3
                omega

/-- C2: one `Signal` on a mutex-kind object with a non-empty wait list
removes and resumes with `Signaled` exactly one waiter — the earliest waiter
of highest priority (lowest numeric value) — leaving every other waiter
registered in unchanged relative order; one `Signal` on an event-kind
(broadcast) object resumes every current waiter with `Signaled` and leaves
the wait list empty. -/
theorem C2_signal_wake (o : WaitObject) :
    (o.kind = .mutexKind → o.waiters ≠ [] →
      ∃ w pre post, o.waiters = pre ++ w :: post ∧
        Signal o = ({ o with waiters := pre ++ post }, [(w, .signaled)]) ∧
        (∀ u ∈ pre, w.priority < u.priority) ∧ (∀ u ∈ post, w.priority ≤ u.priority)) ∧
    (o.kind = .eventKind →
      Signal o = ({ o with waiters := [] }, o.waiters.map (fun w => (w, .signaled)))) := by
  constructor
  · intro hkind hne
    cases hrec : signalOne o.waiters with
    | none =>
        exfalso
        cases hw : o.waiters with
        | nil => exact hne hw
        | cons a l =>
            rw [hw] at hrec
            exact signalOne_ne_none a l hrec
    | some p =>
        obtain ⟨w, rest⟩ := p
        obtain ⟨pre, post, hsplit, hrest, hpre, hpost⟩ := signalOne_spec o.waiters w rest hrec
        refine ⟨w, pre, post, hsplit, ?_, hpre, hpost⟩
        unfold Signal
        rw [hkind, hrec, hrest]
  · intro hkind
    unfold Signal
    rw [hkind]

/-- Witness for C2: on a mutex-kind object with waiters of priorities 3, 1, 2
and 1, the second waiter (priority 1, earliest of the two minimal ones) is
the one resumed. -/
theorem C2_witness :
    ∃ w pre post,
      ([⟨10, 3⟩, ⟨11, 1⟩, ⟨12, 2⟩, ⟨13, 1⟩] : List Waiter) = pre ++ w :: post ∧
      Signal ⟨.mutexKind, [⟨10, 3⟩, ⟨11, 1⟩, ⟨12, 2⟩, ⟨13, 1⟩]⟩ =
        (⟨.mutexKind, pre ++ post⟩, [(w, .signaled)]) ∧
      (∀ u ∈ pre, w.priority < u.priority) ∧ (∀ u ∈ post, w.priority ≤ u.priority) :=
  (C2_signal_wake ⟨.mutexKind, [⟨10, 3⟩, ⟨11, 1⟩, ⟨12, 2⟩, ⟨13, 1⟩]⟩).1 rfl (by decide)

/-! ## Claim C4: handle table operations -/

/-- A successful `get?` index is in range. -/
theorem get?_some_lt {α : Type} (l : List α) (i : Nat) (a : α) (h : l.get? i = some a) :
    i < l.length := by
  rw [List.get?_eq_getElem?] at h
  by_contra hge
  rw [List.getElem?_eq_none (by omega)] at h
  cases h

/-- Reading the slot just written. -/
theorem get?_set_self {α : Type} (l : List α) (i : Nat) (a : α) (h : i < l.length) :
    (l.set i a).get? i = some a := by
  rw [List.get?_eq_getElem?]
  exact List.getElem?_set_self h

/-- C4: creating a handle for an object and reading it back with the matching
type tag yields that object; after a successful close, both a lookup and a
second close of the same handle fail `InvalidHandle`; handle creation fails
(with `OutOfHandles`) exactly when every slot of the per-process table is
occupied; and a lookup with a live handle but the wrong type tag fails
`WrongObjectType`. -/
theorem C4_handle_table_ops :
    (∀ (tbl : HandleTable) (o : KObject) (h : Handle) (tbl2 : HandleTable),
      CreateHandle tbl o = .ok (h, tbl2) → GetObject o.objType tbl2 h = .ok o) ∧
    (∀ (tbl : HandleTable) (h : Handle) (tbl2 : HandleTable) (ty : Nat),
      CloseHandle tbl h = .ok tbl2 →
        GetObject ty tbl2 h = .error .InvalidHandle ∧
        CloseHandle tbl2 h = .error .InvalidHandle) ∧
    (∀ (tbl : HandleTable) (o : KObject),
      CreateHandle tbl o = .error .OutOfHandles ↔ ∀ s ∈ tbl.slots, s.stored ≠ none) ∧
    (∀ (tbl : HandleTable) (h : Handle) (s : HSlot) (o : KObject) (ty : Nat),
      tbl.slots.get? h.1 = some s → s.stored = some o → s.generation = h.2 →
        o.objType ≠ ty → GetObject ty tbl h = .error .WrongObjectType) := by
  refine ⟨?_, ?_, ?_, ?_⟩
  · intro tbl o h tbl2 hc
    unfold CreateHandle at hc
    cases hidx : tbl.slots.findIdx? (fun s => s.stored = none) with
    | none => rw [hidx] at hc; cases hc
    | some i =>
        rw [hidx] at hc
        injection hc with hc
        injection hc with hc1 hc2
        subst hc1 hc2
        obtain ⟨_, ⟨a, ha, _⟩, _⟩ := findIdx?_some_spec _ tbl.slots 0 i hidx
        have hlt : i < tbl.slots.length := get?_some_lt _ _ _ ha
        unfold GetObject
        rw [show ((i, (tbl.slots.getD i ⟨none, 0⟩).generation + 1) : Handle).1 = i from rfl]
        rw [get?_set_self _ _ _ hlt]
        simp
  · intro tbl h tbl2 ty hc
    unfold CloseHandle at hc
    cases hget : tbl.slots.get? h.1 with
    | none => rw [hget] at hc; cases hc
    | some s =>
        simp only [hget] at hc
        cases hst : s.stored with
        | none => simp only [hst] at hc; cases hc
        | some o =>
            simp only [hst] at hc
            by_cases hgen : s.generation = h.2
            · rw [if_pos hgen] at hc
              injection hc with hc
              subst hc
              have hlt : h.1 < tbl.slots.length := get?_some_lt _ _ _ hget
              constructor
              · unfold GetObject
                simp only [get?_set_self _ _ _ hlt]
              · unfold CloseHandle
                simp only [get?_set_self _ _ _ hlt]
            · rw [if_neg hgen] at hc
              cases hc
  · intro tbl o
    constructor
    · intro hc s hs hnone
      unfold CreateHandle at hc
      cases hidx : tbl.slots.findIdx? (fun s => s.stored = none) with
      | none =>
          have := List.findIdx?_eq_none_iff.mp hidx s hs
          rw [hnone] at this
          simp at this
      | some i => rw [hidx] at hc; cases hc
    · intro hall
      unfold CreateHandle
      have hidx : tbl.slots.findIdx? (fun s => s.stored = none) = none := by
        refine List.findIdx?_eq_none_iff.mpr (fun s hs => ?_)
        simpa using hall s hs
      rw [hidx]
  · intro tbl h s o ty hget hst hgen hty
    unfold GetObject
    simp only [hget, hst, if_pos hgen, if_neg hty]

/-- Witness for C4: in a one-slot table, create then read back, close then
fail, full-table creation failure, and a wrong-type lookup. -/
theorem C4_witness :
    GetObject 2 ⟨[⟨some ⟨5, 2⟩, 1⟩]⟩ (0, 1) = .ok ⟨5, 2⟩ ∧
    (GetObject 9 ⟨[⟨none, 1⟩]⟩ (0, 1) = .error .InvalidHandle ∧
      CloseHandle ⟨[⟨none, 1⟩]⟩ (0, 1) = .error .InvalidHandle) ∧
    CreateHandle ⟨[⟨some ⟨5, 2⟩, 1⟩]⟩ ⟨6, 3⟩ = .error .OutOfHandles ∧
    GetObject 9 ⟨[⟨some ⟨5, 2⟩, 1⟩]⟩ (0, 1) = .error .WrongObjectType := by
  refine ⟨?_, ?_, ?_, ?_⟩
  · have := C4_handle_table_ops.1 ⟨[⟨none, 0⟩]⟩ ⟨5, 2⟩ (0, 1) ⟨[⟨some ⟨5, 2⟩, 1⟩]⟩ rfl
    exact this
  · exact C4_handle_table_ops.2.1 ⟨[⟨some ⟨5, 2⟩, 1⟩]⟩ (0, 1) ⟨[⟨none, 1⟩]⟩ 9 rfl
  · exact (C4_handle_table_ops.2.2.1 ⟨[⟨some ⟨5, 2⟩, 1⟩]⟩ ⟨6, 3⟩).mpr (by decide)
  · exact C4_handle_table_ops.2.2.2 ⟨[⟨some ⟨5, 2⟩, 1⟩]⟩ (0, 1) ⟨some ⟨5, 2⟩, 1⟩ ⟨5, 2⟩ 9
      (by decide) (by decide) (by decide) (by decide)

/-! ## Claim C5: generations strictly increase on reuse -/

/-- `getD` of a successful lookup. -/
theorem getD_of_get?_some {α : Type} (l : List α) (i : Nat) (a d : α) (h : l.get? i = some a) :
    l.getD i d = a := by
  unfold List.getD
  rw [h]
  rfl

/-- Shape of a successful `CreateHandle`: the first free slot is allocated,
its generation incremented by one, and the object stored there. -/
theorem CreateHandle_ok_shape (tbl : HandleTable) (o : KObject) (h : Handle)
    (tbl2 : HandleTable) (hc : CreateHandle tbl o = .ok (h, tbl2)) :
    ∃ i, i < tbl.slots.length ∧ storedAt tbl i = none ∧ h = (i, genAt tbl i + 1) ∧
      tbl2 = ⟨tbl.slots.set i ⟨some o, genAt tbl i + 1⟩⟩ := by
  unfold CreateHandle at hc
  cases hidx : tbl.slots.findIdx? (fun s => s.stored = none) with
  | none => rw [hidx] at hc; cases hc
  | some i =>
      rw [hidx] at hc
      injection hc with hc
      injection hc with hc1 hc2
      obtain ⟨_, ⟨a, ha, hpa⟩, _⟩ := findIdx?_some_spec _ tbl.slots 0 i hidx
      have hlt : i < tbl.slots.length := get?_some_lt _ _ _ ha
      have hgetD : tbl.slots.getD i ⟨none, 0⟩ = a := getD_of_get?_some _ _ _ _ ha
      refine ⟨i, hlt, ?_, ?_, ?_⟩
      · unfold storedAt
        rw [hgetD]
        exact of_decide_eq_true hpa
      · rw [← hc1]
        rfl
      · rw [← hc2]
        rfl

/-- Shape of a successful `CloseHandle`: the slot is emptied and its
generation kept. -/
theorem CloseHandle_ok_shape (tbl : HandleTable) (h : Handle) (tbl2 : HandleTable)
    (hc : CloseHandle tbl h = .ok tbl2) :
    ∃ s, tbl.slots.get? h.1 = some s ∧ s.generation = h.2 ∧
      tbl2 = ⟨tbl.slots.set h.1 ⟨none, s.generation⟩⟩ := by
  unfold CloseHandle at hc
  cases hget : tbl.slots.get? h.1 with
  | none => rw [hget] at hc; cases hc
  | some s =>
      simp only [hget] at hc
      cases hst : s.stored with
      | none => simp only [hst] at hc; cases hc
      | some o =>
          simp only [hst] at hc
          by_cases hgen : s.generation = h.2
          · rw [if_pos hgen] at hc
            injection hc with hc
            refine ⟨s, rfl, hgen, ?_⟩
            exact hc.symm
          · rw [if_neg hgen] at hc
            cases hc

/-- Setting one slot only changes that slot's stored object and generation. -/
theorem slot_set_at {α : Type} (l : List α) (i j : Nat) (a d : α) (hlt : i < l.length) :
    (l.set i a).getD j d = if j = i then a else l.getD j d := by
  by_cases hji : j = i
  · subst hji
    rw [if_pos rfl]
    exact getD_of_get?_some _ _ _ _ (get?_set_self _ _ _ hlt)
  · rw [if_neg hji]
    unfold List.getD
    rw [List.get?_eq_getElem?, List.get?_eq_getElem?, List.getElem?_set_ne (fun hij => hji hij.symm)]

/-- Generation of a slot after writing one slot. -/
theorem genAt_set (tbl : HandleTable) (j : Nat) (s : HSlot) (i : Nat)
    (hj : j < tbl.slots.length) :
    genAt ⟨tbl.slots.set j s⟩ i = if i = j then s.generation else genAt tbl i := by
  unfold genAt
  rw [show (HandleTable.mk (tbl.slots.set j s)).slots = tbl.slots.set j s from rfl,
    slot_set_at _ _ _ _ _ hj]
  by_cases hij : i = j
  · rw [if_pos hij, if_pos hij]
  · rw [if_neg hij, if_neg hij]

/-- Stored object of a slot after writing one slot. -/
theorem storedAt_set (tbl : HandleTable) (j : Nat) (s : HSlot) (i : Nat)
    (hj : j < tbl.slots.length) :
    storedAt ⟨tbl.slots.set j s⟩ i = if i = j then s.stored else storedAt tbl i := by
  unfold storedAt
  rw [show (HandleTable.mk (tbl.slots.set j s)).slots = tbl.slots.set j s from rfl,
    slot_set_at _ _ _ _ _ hj]
  by_cases hij : i = j
  · rw [if_pos hij, if_pos hij]
  · rw [if_neg hij, if_neg hij]

/-- Applying one operation never shrinks a slot's generation. -/
theorem genAt_mono_op (tbl : HandleTable) (op : HOp) (i : Nat) :
    genAt tbl i ≤ genAt (applyHOp tbl op) i := by
  cases op with
  | create o =>
      cases hc : CreateHandle tbl o with
      | error e => simp only [applyHOp, hc]; exact Nat.le_refl _
      | ok r =>
          obtain ⟨h2, tbl2⟩ := r
          obtain ⟨j, hj, _, _, htbl2⟩ := CreateHandle_ok_shape tbl o h2 tbl2 hc
          simp only [applyHOp, hc]
          subst htbl2
          rw [genAt_set _ _ _ _ hj]
          by_cases hij : i = j
          · rw [if_pos hij, hij]
            exact Nat.le_succ _
          · rw [if_neg hij]
  | close h2 =>
      cases hc : CloseHandle tbl h2 with
      | error e => simp only [applyHOp, hc]; exact Nat.le_refl _
      | ok tbl2 =>
          obtain ⟨s, hget, _, htbl2⟩ := CloseHandle_ok_shape tbl h2 tbl2 hc
          simp only [applyHOp, hc]
          subst htbl2
          rw [genAt_set _ _ _ _ (get?_some_lt _ _ _ hget)]
          by_cases hih : i = h2.1
          · rw [if_pos hih, hih]
            unfold genAt
            rw [getD_of_get?_some _ _ _ (⟨none, 0⟩ : HSlot) hget]
          · rw [if_neg hih]

/-- Generations never shrink across any operation sequence. -/
theorem genAt_mono (ops : List HOp) :
    ∀ (tbl : HandleTable) (i : Nat), genAt tbl i ≤ genAt (applyHOps tbl ops) i := by
  induction ops with
  | nil => intro tbl i; exact Nat.le_refl _
  | cons op ops ih =>
      intro tbl i
      calc genAt tbl i ≤ genAt (applyHOp tbl op) i := genAt_mono_op tbl op i
        _ ≤ genAt (applyHOps (applyHOp tbl op) ops) i := ih (applyHOp tbl op) i
        _ = genAt (applyHOps tbl (op :: ops)) i := rfl

/-- An operation that fills a free slot is a `CreateHandle` allocating it,
and it increments that slot's generation. -/
theorem fill_step (tbl : HandleTable) (op : HOp) (i : Nat)
    (hfree : storedAt tbl i = none) (hocc : (storedAt (applyHOp tbl op) i).isSome = true) :
    genAt (applyHOp tbl op) i = genAt tbl i + 1 := by
  cases op with
  | create o =>
      cases hc : CreateHandle tbl o with
      | error e =>
          simp only [applyHOp, hc] at hocc
          rw [hfree] at hocc
          cases hocc
      | ok r =>
          obtain ⟨h2, tbl2⟩ := r
          obtain ⟨j, hj, _, _, htbl2⟩ := CreateHandle_ok_shape tbl o h2 tbl2 hc
          simp only [applyHOp, hc] at hocc ⊢
          subst htbl2
          by_cases hij : i = j
          · rw [genAt_set _ _ _ _ hj, if_pos hij, hij]
          · exfalso
            rw [storedAt_set _ _ _ _ hj, if_neg hij, hfree] at hocc
            cases hocc
  | close h2 =>
      exfalso
      cases hc : CloseHandle tbl h2 with
      | error e =>
          simp only [applyHOp, hc] at hocc
          rw [hfree] at hocc
          cases hocc
      | ok tbl2 =>
          obtain ⟨s, hget, _, htbl2⟩ := CloseHandle_ok_shape tbl h2 tbl2 hc
          simp only [applyHOp, hc] at hocc
          subst htbl2
          rw [storedAt_set _ _ _ _ (get?_some_lt _ _ _ hget)] at hocc
          by_cases hih : i = h2.1
          · rw [if_pos hih] at hocc
            cases hocc
          · rw [if_neg hih, hfree] at hocc
            cases hocc

/-- A slot that is free now and occupied after an operation sequence has a
strictly larger generation afterwards. -/
theorem genAt_strict (ops : List HOp) :
    ∀ (tbl : HandleTable) (i : Nat), storedAt tbl i = none →
      (storedAt (applyHOps tbl ops) i).isSome = true →
      genAt tbl i < genAt (applyHOps tbl ops) i := by
  induction ops with
  | nil =>
      intro tbl i hfree hocc
      unfold applyHOps at hocc
      simp only [List.foldl_nil] at hocc
      rw [hfree] at hocc
      cases hocc
  | cons op ops ih =>
      intro tbl i hfree hocc
      have hstep : applyHOps tbl (op :: ops) = applyHOps (applyHOp tbl op) ops := rfl
      rw [hstep] at hocc ⊢
      cases hmid : storedAt (applyHOp tbl op) i with
      | none =>
          have := ih (applyHOp tbl op) i hmid hocc
          have hm := genAt_mono_op tbl op i
          omega
      | some s =>
          have hfill := fill_step tbl op i hfree (by rw [hmid]; rfl)
          have hm := genAt_mono ops (applyHOp tbl op) i
          omega

/-- Operation application preserves the number of slots. -/
theorem applyHOp_length (tbl : HandleTable) (op : HOp) :
    (applyHOp tbl op).slots.length = tbl.slots.length := by
  cases op with
  | create o =>
      cases hc : CreateHandle tbl o with
      | error e => simp only [applyHOp, hc]
      | ok r =>
          obtain ⟨h2, tbl2⟩ := r
          obtain ⟨j, hj, _, _, htbl2⟩ := CreateHandle_ok_shape tbl o h2 tbl2 hc
          simp only [applyHOp, hc]
          subst htbl2
          exact List.length_set ..
  | close h2 =>
      cases hc : CloseHandle tbl h2 with
      | error e => simp only [applyHOp, hc]
      | ok tbl2 =>
          obtain ⟨s, hget, _, htbl2⟩ := CloseHandle_ok_shape tbl h2 tbl2 hc
          simp only [applyHOp, hc]
          subst htbl2
          exact List.length_set ..

/-- Operation sequences preserve the number of slots. -/
theorem applyHOps_length (ops : List HOp) :
    ∀ (tbl : HandleTable), (applyHOps tbl ops).slots.length = tbl.slots.length := by
  induction ops with
  | nil => intro tbl; rfl
  | cons op ops ih =>
      intro tbl
      calc (applyHOps tbl (op :: ops)).slots.length
          = (applyHOps (applyHOp tbl op) ops).slots.length := rfl
        _ = (applyHOp tbl op).slots.length := ih _
        _ = tbl.slots.length := applyHOp_length ..

/-- Any handle whose generation disagrees with its slot's current generation
is rejected with `InvalidHandle` by both `GetObject` and `CloseHandle`. -/
theorem stale_fails (tbl : HandleTable) (h : Handle) (ty : Nat)
    (hlt : h.1 < tbl.slots.length) (hgen : genAt tbl h.1 ≠ h.2) :
    GetObject ty tbl h = .error .InvalidHandle ∧
    CloseHandle tbl h = .error .InvalidHandle := by
  have hget : tbl.slots.get? h.1 = some (tbl.slots.get ⟨h.1, hlt⟩) := List.get?_eq_get hlt
  have hgetD : tbl.slots.getD h.1 ⟨none, 0⟩ = tbl.slots.get ⟨h.1, hlt⟩ :=
    getD_of_get?_some _ _ _ _ hget
  have hgen2 : (tbl.slots.get ⟨h.1, hlt⟩).generation ≠ h.2 := by
    unfold genAt at hgen
    rw [hgetD] at hgen
    exact hgen
  constructor
  · unfold GetObject
    simp only [hget]
    cases hst : (tbl.slots.get ⟨h.1, hlt⟩).stored with
    | none => rfl
    | some o => simp only [if_neg hgen2]
  · unfold CloseHandle
    simp only [hget]
    cases hst : (tbl.slots.get ⟨h.1, hlt⟩).stored with
    | none => rfl
    | some o => simp only [if_neg hgen2]

/-- C5: across any operation sequence, a slot's generation strictly increases
whenever the slot is reused (freed at some intermediate point and occupied
again later), so a handle captured while it was valid never resolves to the
object stored afterwards: both `GetObject` and `CloseHandle` with the stale
handle fail `InvalidHandle`. -/
theorem C5_stale_handles (tbl : HandleTable) (h : Handle) (ops1 ops2 : List HOp) (ty : Nat)
    (hv : ValidHandle tbl h)
    (hfree : storedAt (applyHOps tbl ops1) h.1 = none)
    (hocc : (storedAt (applyHOps tbl (ops1 ++ ops2)) h.1).isSome = true) :
    h.2 < genAt (applyHOps tbl (ops1 ++ ops2)) h.1 ∧
    GetObject ty (applyHOps tbl (ops1 ++ ops2)) h = .error .InvalidHandle ∧
    CloseHandle (applyHOps tbl (ops1 ++ ops2)) h = .error .InvalidHandle := by
  obtain ⟨hlen, hsome, hgen⟩ := hv
  have hsplit : applyHOps tbl (ops1 ++ ops2) = applyHOps (applyHOps tbl ops1) ops2 := by
    unfold applyHOps
    exact List.foldl_append ..
  rw [hsplit] at hocc ⊢
  have hmono1 : genAt tbl h.1 ≤ genAt (applyHOps tbl ops1) h.1 := genAt_mono ops1 tbl h.1
  have hstrict : genAt (applyHOps tbl ops1) h.1 <
      genAt (applyHOps (applyHOps tbl ops1) ops2) h.1 :=
    genAt_strict ops2 (applyHOps tbl ops1) h.1 hfree hocc
  have hlt : h.2 < genAt (applyHOps (applyHOps tbl ops1) ops2) h.1 := by omega
  have hlen2 : h.1 < (applyHOps (applyHOps tbl ops1) ops2).slots.length := by
    rw [applyHOps_length, applyHOps_length]
    exact hlen
  obtain ⟨hg, hc⟩ := stale_fails (applyHOps (applyHOps tbl ops1) ops2) h ty hlen2 (by omega)
  exact ⟨hlt, hg, hc⟩

/-- Witness for C5: a one-slot table holding an object with a valid handle
(0, 1); closing it and creating a new object reuses the slot with generation
2, and the stale handle fails both lookups. -/
theorem C5_witness :
    (1 : Nat) < genAt (applyHOps ⟨[⟨some ⟨5, 2⟩, 1⟩]⟩ ([.close (0, 1)] ++ [.create ⟨6, 3⟩])) 0 ∧
    GetObject 3 (applyHOps ⟨[⟨some ⟨5, 2⟩, 1⟩]⟩ ([.close (0, 1)] ++ [.create ⟨6, 3⟩])) (0, 1) =
      .error .InvalidHandle ∧
    CloseHandle (applyHOps ⟨[⟨some ⟨5, 2⟩, 1⟩]⟩ ([.close (0, 1)] ++ [.create ⟨6, 3⟩])) (0, 1) =
      .error .InvalidHandle :=
  C5_stale_handles ⟨[⟨some ⟨5, 2⟩, 1⟩]⟩ (0, 1) [.close (0, 1)] [.create ⟨6, 3⟩] 3
    ⟨by decide, by decide, by decide⟩ (by decide) (by decide)

/-! ## Claim C6: store-exclusive success characterization -/

/-- Pointwise effect of one monitor event on one core's reservation. -/
theorem monStep_at (s : MonState) (e : MemEvent) (c : Nat) (r : MemRange) :
    monStep s e c = some r ↔ ((s c = some r ∧ ¬ touches c r e) ∨ e = .loadEx c r) := by
  cases e with
  | loadEx c2 r2 =>
      simp only [monStep, touches]
      by_cases hc : c = c2
      · subst hc
        rw [if_pos rfl]
        constructor
        · intro h
          injection h with h
          subst h
          exact Or.inr rfl
        · rintro (⟨_, habs⟩ | he)
          · exact absurd rfl habs
          · injection he with h1 h2
            rw [h2]
      · rw [if_neg hc]
        constructor
        · intro h
          exact Or.inl ⟨h, fun he => hc he.symm⟩
        · rintro (⟨h, _⟩ | he)
          · exact h
          · injection he with h1 h2
            exact absurd h1.symm hc
  | write c2 r2 =>
      simp only [monStep, touches]
      cases hs : s c with
      | none =>
          constructor
          · intro h
            cases h
          · rintro (⟨h, _⟩ | he)
            · cases h
            · cases he
      | some r3 =>
          have hred : (match some r3 with
              | none => none
              | some r4 => if rangesOverlap r4 r2 then none else some r4 : Option MemRange) =
              (if rangesOverlap r3 r2 then none else some r3) := rfl
          rw [hred]
          by_cases hov : rangesOverlap r3 r2
          · rw [if_pos hov]
            constructor
            · intro h
              cases h
            · rintro (⟨h, hnt⟩ | he)
              · injection h with h
                subst h
                exact absurd (by unfold rangesOverlap at hov ⊢; omega) hnt
              · cases he
          · rw [if_neg hov]
            constructor
            · intro h
              injection h with h
              subst h
              refine Or.inl ⟨rfl, fun hov2 => hov ?_⟩
              unfold rangesOverlap at hov2 ⊢
              omega
            · rintro (⟨h, _⟩ | he)
              · exact h
              · cases he

/-- A core holds reservation `r` after a history exactly when the history
ends with a matching `LoadExclusive` followed only by events that do not
touch it. -/
theorem runMon_char (evs : List MemEvent) :
    ∀ (s : MonState) (c : Nat) (r : MemRange),
      evs.foldl monStep s c = some r ↔
        ((s c = some r ∧ ∀ e ∈ evs, ¬ touches c r e) ∨
         ∃ pre post, evs = pre ++ .loadEx c r :: post ∧ ∀ e ∈ post, ¬ touches c r e) := by
  induction evs with
  | nil =>
      intro s c r
      simp only [List.foldl_nil, List.not_mem_nil]
      constructor
      · intro h
        exact Or.inl ⟨h, by intro e he; cases he⟩
      · rintro (⟨h, _⟩ | ⟨pre, post, habs, _⟩)
        · exact h
        · exact absurd habs (List.append_ne_nil_of_right_ne_nil pre (by simp)).symm
  | cons e evs ih =>
      intro s c r
      rw [List.foldl_cons, ih (monStep s e) c r]
      constructor
      · rintro (⟨hstep, hrest⟩ | ⟨pre, post, hsplit, hpost⟩)
        · rcases (monStep_at s e c r).mp hstep with ⟨hs, hnt⟩ | he
          · refine Or.inl ⟨hs, ?_⟩
            intro e2 he2
            rcases List.mem_cons.mp he2 with rfl | he3
            · exact hnt
            · exact hrest e2 he3
          · subst he
            exact Or.inr ⟨[], evs, rfl, hrest⟩
        · exact Or.inr ⟨e :: pre, post, by rw [hsplit]; rfl, hpost⟩
      · rintro (⟨hs, hall⟩ | ⟨pre, post, hsplit, hpost⟩)
        · refine Or.inl ⟨?_, ?_⟩
          · exact (monStep_at s e c r).mpr (Or.inl ⟨hs, hall e (List.mem_cons_self ..)⟩)
          · intro e2 he2
            exact hall e2 (List.mem_cons_of_mem _ he2)
        · cases pre with
          | nil =>
              injection hsplit with h1 h2
              subst h2
              refine Or.inl ⟨?_, hpost⟩
              exact (monStep_at s e c r).mpr (Or.inr h1)
          | cons e2 pre2 =>
              injection hsplit with h1 h2
              subst h1
              exact Or.inr ⟨pre2, post, h2, hpost⟩

/-- C6: `StoreExclusive(c, r)` after any history of load-exclusives and
writes returns `Ok` exactly when a matching `LoadExclusive` by core `c`
recorded the reservation and no later event touched it — no write from any
core overlapping `r` and no other monitor operation by `c`; otherwise it
returns `Failed`.  In both cases the core's reservation is cleared
afterwards, and the result is always one of the two ordinary values `Ok` and
`Failed` — never an error. -/
theorem C6_store_exclusive (evs : List MemEvent) (c : Nat) (r : MemRange) :
    ((StoreExclusive c r (runMon evs)).1 = .Ok ↔
      ∃ pre post, evs = pre ++ .loadEx c r :: post ∧ ∀ e ∈ post, ¬ touches c r e) ∧
    (StoreExclusive c r (runMon evs)).2 c = none ∧
    ((StoreExclusive c r (runMon evs)).1 = .Ok ∨
      (StoreExclusive c r (runMon evs)).1 = .Failed) := by
  refine ⟨?_, ?_, ?_⟩
  · unfold StoreExclusive
    by_cases hres : runMon evs c = some r
    · rw [if_pos hres]
      simp only [true_iff]
      rcases (runMon_char evs initMon c r).mp hres with ⟨habs, _⟩ | hsplit
      · cases habs
      · exact hsplit
    · rw [if_neg hres]
      constructor
      · intro habs
        cases habs
      · intro hsplit
        exact absurd ((runMon_char evs initMon c r).mpr (Or.inr hsplit)) hres
  · unfold StoreExclusive
    by_cases hres : runMon evs c = some r
    · rw [if_pos hres]
      simp
    · rw [if_neg hres]
      simp
  · unfold StoreExclusive
    by_cases hres : runMon evs c = some r
    · rw [if_pos hres]
      exact Or.inl rfl
    · rw [if_neg hres]
      exact Or.inr rfl

/-- Witness for C6: core 0 reserves bytes [4, 6); core 1 writes [9, 12),
which does not touch the reservation, so core 0's store-exclusive succeeds;
after a write to [5, 8) overlapping it, the store-exclusive fails. -/
theorem C6_witness :
    (StoreExclusive 0 (4, 2) (runMon [.loadEx 0 (4, 2), .write 1 (9, 3)])).1 = .Ok ∧
    (StoreExclusive 0 (4, 2) (runMon [.loadEx 0 (4, 2), .write 1 (5, 3)])).1 = .Failed := by
  constructor
  · exact (C6_store_exclusive [.loadEx 0 (4, 2), .write 1 (9, 3)] 0 (4, 2)).1.mpr
      ⟨[], [.write 1 (9, 3)], rfl, by
        intro e he
        rcases List.mem_cons.mp he with rfl | he2
        · unfold touches rangesOverlap
          omega
        · cases he2⟩
  · rcases (C6_store_exclusive [.loadEx 0 (4, 2), .write 1 (5, 3)] 0 (4, 2)).2.2 with hok | hf
    · exfalso
      obtain ⟨pre, post, hsplit, hpost⟩ :=
        (C6_store_exclusive [.loadEx 0 (4, 2), .write 1 (5, 3)] 0 (4, 2)).1.mp hok
      have hw : (MemEvent.write 1 (5, 3)) ∈ post := by
        cases pre with
        | nil =>
            injection hsplit with h1 h2
            rw [← h2]
            exact List.mem_cons_self ..
        | cons e2 pre2 =>
            injection hsplit with h1 h2
            cases pre2 with
            | nil =>
                injection h2 with h3 h4
                cases h3
            | cons e3 pre3 =>
                injection h2 with h3 h4
                cases pre3 with
                | nil => cases h4
                | cons e5 pre5 => cases h4
      have := hpost _ hw
      unfold touches rangesOverlap at this
      omega
    · exact hf

/-! ## Claim C3: scheduler selection -/

/-- The boolean candidate comparison decides `StrictlyPreferred`. -/
theorem betterChoice_iff (c : Nat) (cand cur : KThread) :
    betterChoice c cand cur = true ↔ StrictlyPreferred c cand cur := by
  unfold betterChoice StrictlyPreferred
  simp

/-- A rejected candidate leaves the current selection weakly preferred. -/
theorem not_strict_weak (c : Nat) (a b : KThread) (h : ¬ StrictlyPreferred c a b) :
    WeaklyPreferred c b a := by
  unfold StrictlyPreferred at h
  unfold WeaklyPreferred
  push_neg at h
  by_cases hp : b.priority = a.priority
  · refine Or.inr ⟨hp, ?_⟩
    by_cases hbi : b.idealCore = c
    · exact Or.inl hbi
    · refine Or.inr (fun hai => hbi ?_)
      obtain ⟨-, h2⟩ := h
      by_cases hc : a.idealCore = c
      · exact absurd hbi (by
          have := h2 hp.symm hai
          intro h3
          exact h3 this)
      · exact absurd hai hc
  · refine Or.inl ?_
    obtain ⟨h1, -⟩ := h
    omega

/-- Strict preference is transitive. -/
theorem strict_trans (c : Nat) (a b d : KThread) (h1 : StrictlyPreferred c a b)
    (h2 : StrictlyPreferred c b d) : StrictlyPreferred c a d := by
  unfold StrictlyPreferred at *
  rcases h1 with h1 | ⟨h1, h1a, h1b⟩ <;> rcases h2 with h2 | ⟨h2, h2a, h2b⟩
  · exact Or.inl (by omega)
  · exact Or.inl (by omega)
  · exact Or.inl (by omega)
  · exact Or.inr ⟨by omega, h1a, h2b⟩

/-- Strict preference over the old selection propagates past a rejected
candidate. -/
theorem strict_weak_trans (c : Nat) (r cur x : KThread) (h1 : StrictlyPreferred c r cur)
    (h2 : WeaklyPreferred c cur x) : StrictlyPreferred c r x := by
  unfold StrictlyPreferred at *
  unfold WeaklyPreferred at h2
  rcases h1 with h1 | ⟨h1, h1a, h1b⟩ <;> rcases h2 with h2 | ⟨h2, h2a⟩
  · exact Or.inl (by omega)
  · exact Or.inl (by omega)
  · exact Or.inl (by omega)
  · refine Or.inr ⟨by omega, h1a, ?_⟩
    rcases h2a with h2a | h2a
    · exact absurd h2a h1b
    · exact h2a

/-- The scheduler's left-to-right scan returns either the accumulator (with
every queue element weakly beaten) or a queue element that strictly beats the
accumulator and everything before it, and weakly beats everything after it. -/
theorem schedFold_spec (c : Nat) :
    ∀ (ts : List KThread) (cur r : KThread),
      ts.foldl (fun cur2 cand => if betterChoice c cand cur2 then cand else cur2) cur = r →
      ((r = cur ∧ ∀ u ∈ ts, WeaklyPreferred c r u) ∨
       (∃ pre post, ts = pre ++ r :: post ∧ StrictlyPreferred c r cur ∧
         (∀ u ∈ pre, StrictlyPreferred c r u) ∧ (∀ u ∈ post, WeaklyPreferred c r u))) := by
  intro ts
  induction ts with
  | nil =>
      intro cur r h
      simp only [List.foldl_nil] at h
      exact Or.inl ⟨h.symm, by intro u hu; cases hu⟩
  | cons x ts ih =>
      intro cur r h
      rw [List.foldl_cons] at h
      by_cases hbc : betterChoice c x cur = true
      · rw [if_pos hbc] at h
        have hxcur : StrictlyPreferred c x cur := (betterChoice_iff ..).mp hbc
        rcases ih x r h with ⟨rfl, hweak⟩ | ⟨pre, post, hsplit, hstrict, hpre, hpost⟩
        · refine Or.inr ⟨[], ts, rfl, hxcur, ?_, hweak⟩
          intro u hu
          cases hu
        · refine Or.inr ⟨x :: pre, post, by rw [hsplit]; rfl,
            strict_trans c r x cur hstrict hxcur, ?_, hpost⟩
          intro u hu
          rcases List.mem_cons.mp hu with rfl | hu2
          · exact hstrict
          · exact hpre u hu2
      · rw [if_neg hbc] at h
        have hweakx : WeaklyPreferred c cur x :=
          not_strict_weak c x cur (fun hs => hbc ((betterChoice_iff ..).mpr hs))
        rcases ih cur r h with ⟨rfl, hweak⟩ | ⟨pre, post, hsplit, hstrict, hpre, hpost⟩
        · refine Or.inl ⟨rfl, ?_⟩
          intro u hu
          rcases List.mem_cons.mp hu with rfl | hu2
          · exact hweakx
          · exact hweak u hu2
        · refine Or.inr ⟨x :: pre, post, by rw [hsplit]; rfl, hstrict, ?_, hpost⟩
          intro u hu
          rcases List.mem_cons.mp hu with rfl | hu2
          · exact strict_weak_trans c r cur u hstrict hweakx
          · exact hpre u hu2

/-- Every thread enqueued on core `c` of a reachable scheduler state has `c`
in its affinity mask. -/
theorem sched_invariant (n : Nat) (q : ReadyQueues) (hr : SchedReachable n q) :
    ∀ (c : Nat) (t : KThread), t ∈ q c → t.affinityMask.testBit c = true := by
  induction hr with
  | empty => intro c t ht; cases ht
  | add t0 q0 _ ih =>
      intro c t ht
      unfold AddThread at ht
      by_cases hcond : c < n ∧ t0.affinityMask.testBit c
      · rw [if_pos hcond] at ht
        rcases List.mem_append.mp ht with ht2 | ht2
        · exact ih c t ht2
        · rcases List.mem_cons.mp ht2 with rfl | habs
          · exact hcond.2
          · cases habs
      · rw [if_neg hcond] at ht
        exact ih c t ht
  | remove t0 q0 _ ih =>
      intro c t ht
      unfold RemoveThread at ht
      exact ih c t (List.mem_filter.mp ht).1

/-- C3: on every reachable scheduler state, `Schedule(c)` returns a thread of
core `c`'s queue that strictly beats (higher priority, or equal priority with
only it hinted to `c`) every thread queued before it and weakly beats every
thread queued after it — i.e. the highest-priority eligible thread, ties
broken in favour of an ideal-core match and otherwise FIFO; the returned
thread's affinity mask always includes `c`; a thread with an empty affinity
mask is never returned; and with no eligible thread the core is idle
(`none`), not an error. -/
theorem C3_schedule (n : Nat) (q : ReadyQueues) (hr : SchedReachable n q) (c : Nat) :
    (∀ t, Schedule c q = some t →
      t.affinityMask.testBit c = true ∧
      ∃ pre post, q c = pre ++ t :: post ∧
        (∀ u ∈ pre, StrictlyPreferred c t u) ∧ (∀ u ∈ post, WeaklyPreferred c t u)) ∧
    (Schedule c q = none ↔ q c = []) ∧
    (∀ t, t.affinityMask = 0 → Schedule c q ≠ some t) := by
  have hmain : ∀ t, Schedule c q = some t →
      t.affinityMask.testBit c = true ∧
      ∃ pre post, q c = pre ++ t :: post ∧
        (∀ u ∈ pre, StrictlyPreferred c t u) ∧ (∀ u ∈ post, WeaklyPreferred c t u) := by
    intro t hsched
    unfold Schedule at hsched
    cases hq : q c with
    | nil => rw [hq] at hsched; cases hsched
    | cons t0 ts =>
        rw [hq] at hsched
        injection hsched with hsched
        rcases schedFold_spec c ts t0 t hsched with ⟨rfl, hweak⟩ |
          ⟨pre, post, hsplit, hstrict, hpre, hpost⟩
        · have hmem : t ∈ q c := by rw [hq]; exact List.mem_cons_self ..
          refine ⟨sched_invariant n q hr c t hmem, [], ts, rfl, ?_, hweak⟩
          intro u hu
          cases hu
        · have hmem : t ∈ q c := by
            rw [hq, hsplit]
            exact List.mem_cons_of_mem _ (List.mem_append.mpr (Or.inr (List.mem_cons_self ..)))
          refine ⟨sched_invariant n q hr c t hmem, t0 :: pre, post, ?_, ?_, hpost⟩
          · rw [hsplit]
            rfl
          · intro u hu
            rcases List.mem_cons.mp hu with rfl | hu2
            · exact hstrict
            · exact hpre u hu2
  refine ⟨hmain, ?_, ?_⟩
  · constructor
    · intro hnone
      cases hq : q c with
      | nil => rfl
      | cons t0 ts =>
          unfold Schedule at hnone
          rw [hq] at hnone
          cases hnone
    · intro hq
      unfold Schedule
      rw [hq]
  · intro t hmask hsched
    have := (hmain t hsched).1
    rw [hmask] at this
    rw [Nat.zero_testBit] at this
    cases this
/-- Witness for C3: two threads of equal priority 5 and full mask on two
cores; on core 1 the scheduler picks the later-queued thread whose ideal
core is 1, which strictly beats the earlier thread and has core 1 in its
mask. -/
theorem C3_witness :
    (⟨2, 5, 3, 1⟩ : KThread).affinityMask.testBit 1 = true ∧
    ∃ pre post,
      (AddThread 2 ⟨2, 5, 3, 1⟩ (AddThread 2 ⟨1, 5, 3, 0⟩ (fun _ => []))) 1 =
        pre ++ (⟨2, 5, 3, 1⟩ : KThread) :: post ∧
      (∀ u ∈ pre, StrictlyPreferred 1 ⟨2, 5, 3, 1⟩ u) ∧
      (∀ u ∈ post, WeaklyPreferred 1 ⟨2, 5, 3, 1⟩ u) :=
  (C3_schedule 2 (AddThread 2 ⟨2, 5, 3, 1⟩ (AddThread 2 ⟨1, 5, 3, 0⟩ (fun _ => [])))
    (SchedReachable.add _ _ (SchedReachable.add _ _ SchedReachable.empty)) 1).1
    ⟨2, 5, 3, 1⟩ (by decide)
